import Mathlib

/-!
A shallow embedding of the Arpeggio PEG parser interpreter
(src/arpeggio/__init__.py) and proofs about the claims of spec.md.

The embedding models the mutable `Parser` object as an explicit state
record `PState` that is threaded through the evaluation.  Python's
raise/except control flow for `NoMatch` is modelled by the `Out` type:
an evaluation either returns a result together with the state, raises
an error together with the state at the point of the raise, or runs
out of fuel (the Python code has genuinely non-terminating runs, see
the ZeroOrMore theorems below).  Parse results are modelled by `PRes`,
which covers every Python value that flows through the parse methods:
`None`, `Terminal`, `NonTerminal` and plain lists.

Ghost instrumentation: the state carries a list of events recording
every invocation of a node-specific matcher (`_parse`), every
invocation of the whitespace skipper `_skip_ws`, and every entry into
the comment-matching branch of `Match.parse`.  The events have no
influence on control flow; they only make properties such as "the
matcher is not re-run on a cache hit" and "no whitespace is skipped
inside a Combine subtree" observable.
-/

namespace Arpeggio

/-- Ghost events recorded during evaluation (no influence on control flow):
a node-specific matcher ran, the whitespace skipper ran, or the
comment-matching branch of Match.parse was entered. -/
inductive Ev where
  | matcher (nid : Nat) (pos : Nat) : Ev
  | wsSkip (pos : Nat) : Ev
  | commentTry (pos : Nat) : Ev
deriving Repr, DecidableEq

/-- The data of a NoMatch exception: the reported rule name (or literal),
the input position, and the `_up` flag (True on creation, cleared when the
evaluation descends into a sub-expression).  The back-reference to the
parser object is dropped; exception values are threaded explicitly. -/
structure NM where
  rule : String
  position : Nat
  up : Bool
deriving Repr, DecidableEq

/-- An exception propagating out of a parse method: either a NoMatch
(with its data) or the TypeError that Python raises for the statement
`raise self.nm` when `self.nm` is still None. -/
inductive PErr where
  | noMatch (nm : NM) : PErr
  | typeErrNone : PErr
deriving Repr, DecidableEq

/-- A Python value produced by the parse methods: None, a Terminal
(with attached comments subtree), a NonTerminal, or a plain list. -/
inductive PRes where
  | non : PRes
  | term (rule : String) (position : Nat) (value : String) (suppress : Bool)
      (comments : Option PRes) : PRes
  | nt (rule : String) (position : Nat) (children : List PRes) : PRes
  | list (elems : List PRes) : PRes
deriving Repr

/-- A memo-table entry body: the cached outcome, either a successful
result or a recorded NoMatch. -/
inductive CRes where
  | ok (r : PRes) : CRes
  | err (nm : NM) : CRes
deriving Repr

/-- The parser-model expression graph.  Every node carries a numeric
identity `nid` standing for Python object identity (each node owns its
private memo table; the embedding keys one global table by (nid, pos)),
the rule name and the root flag. -/
inductive Expr where
  | sequence (nid : Nat) (rule : String) (root : Bool) (nodes : List Expr) : Expr
  | orderedChoice (nid : Nat) (rule : String) (root : Bool) (nodes : List Expr) : Expr
  | opt (nid : Nat) (rule : String) (root : Bool) (child : Expr) : Expr
  | zeroOrMore (nid : Nat) (rule : String) (root : Bool) (child : Expr) : Expr
  | oneOrMore (nid : Nat) (rule : String) (root : Bool) (child : Expr) : Expr
  | andPred (nid : Nat) (rule : String) (root : Bool) (nodes : List Expr) : Expr
  | notPred (nid : Nat) (rule : String) (root : Bool) (nodes : List Expr) : Expr
  | empty (nid : Nat) (rule : String) (root : Bool) : Expr
  | combine (nid : Nat) (rule : String) (root : Bool) (nodes : List Expr) : Expr
  | strMatch (nid : Nat) (rule : String) (root : Bool) (toMatch : String)
      (ignoreCase : Bool) : Expr
  | endOfFile (nid : Nat) (rule : String) (root : Bool) : Expr
deriving Repr

def Expr.nid : Expr → Nat
  | .sequence i _ _ _ => i
  | .orderedChoice i _ _ _ => i
  | .opt i _ _ _ => i
  | .zeroOrMore i _ _ _ => i
  | .oneOrMore i _ _ _ => i
  | .andPred i _ _ _ => i
  | .notPred i _ _ _ => i
  | .empty i _ _ => i
  | .combine i _ _ _ => i
  | .strMatch i _ _ _ _ => i
  | .endOfFile i _ _ => i

def Expr.rule : Expr → String
  | .sequence _ r _ _ => r
  | .orderedChoice _ r _ _ => r
  | .opt _ r _ _ => r
  | .zeroOrMore _ r _ _ => r
  | .oneOrMore _ r _ _ => r
  | .andPred _ r _ _ => r
  | .notPred _ r _ _ => r
  | .empty _ r _ => r
  | .combine _ r _ _ => r
  | .strMatch _ r _ _ _ => r
  | .endOfFile _ r _ => r

def Expr.root : Expr → Bool
  | .sequence _ _ b _ => b
  | .orderedChoice _ _ b _ => b
  | .opt _ _ b _ => b
  | .zeroOrMore _ _ b _ => b
  | .oneOrMore _ _ b _ => b
  | .andPred _ _ b _ => b
  | .notPred _ _ b _ => b
  | .empty _ _ b => b
  | .combine _ _ b _ => b
  | .strMatch _ _ b _ _ => b
  | .endOfFile _ _ b => b

/-- True for the primitive Match subclasses (StrMatch, EndOfFile),
which inherit the overriding `Match.parse` instead of the memoizing
`ParsingExpression.parse`. -/
def Expr.isMatchLeaf : Expr → Bool
  | .strMatch _ _ _ _ _ => true
  | .endOfFile _ _ _ => true
  | _ => false

/-- Python `type(x) is Sequence`: an exact type test, false for the
subclass OrderedChoice. -/
def isSeqNode : Option Expr → Bool
  | some (.sequence _ _ _ _) => true
  | _ => false

/-- The `name` property of a Not predicate node, used when it raises. -/
def notName (e : Expr) : String :=
  if e.root then e.rule ++ "(Not)" else "Not"

/-- The full parser state: the fields of the Python `Parser` object that
the evaluation reads or writes, one global memo table keyed by
(node identity, position), and the ghost event list. -/
structure PState where
  input : List Char
  position : Nat
  nm : Option NM
  inLexRule : Bool
  inParseComment : Bool
  lastPexpr : Option Expr
  skipws : Bool
  ws : List Char
  reduceTree : Bool
  commentsModel : Option Expr
  cache : List ((Nat × Nat) × (CRes × Nat))
  events : List Ev
deriving Repr

/-- Outcome of evaluating a parse method: a normal return, a raised
exception, or fuel exhaustion (the Python code can loop forever). -/
inductive Out where
  | ok (r : PRes) (s : PState) : Out
  | err (e : PErr) (s : PState) : Out
  | fuelOut : Out
deriving Repr

/-- The number of leading whitespace characters of a character list. -/
def skipCount (ws : List Char) : List Char → Nat
  | [] => 0
  | c :: rest => if c ∈ ws then skipCount ws rest + 1 else 0

/-- Parser._skip_ws: advance the position over whitespace characters
when the skipws option is on. -/
def skipWs (s : PState) : PState :=
  if s.skipws then
    { s with position := s.position + skipCount s.ws (s.input.drop s.position) }
  else s

/-- ParsingExpression._parse_intro: skip whitespace unless inside a
lexical (Combine) subtree.  Records a ghost event whenever _skip_ws is
invoked. -/
def parseIntro (s : PState) : PState :=
  if s.inLexRule then s
  else
    let s' := skipWs s
    { s' with events := .wsSkip s.position :: s'.events }

/-- Python truthiness of a parse result: None is falsy, a Terminal is
always truthy (a plain object), a NonTerminal or list is truthy iff
non-empty. -/
def truthy : PRes → Bool
  | .non => false
  | .term _ _ _ _ _ => true
  | .nt _ _ kids => !kids.isEmpty
  | .list xs => !xs.isEmpty

def PRes.isTerm : PRes → Bool
  | .term _ _ _ _ _ => true
  | _ => false

/-- The module-level flatten helper: flattens nested plain lists, keeping
strings-and-NonTerminals (and every non-iterable) as elements. -/
def flattenList : List PRes → List PRes
  | [] => []
  | .list xs :: rest => flattenList xs ++ flattenList rest
  | .non :: rest => .non :: flattenList rest
  | .term r p v sup c :: rest => .term r p v sup c :: flattenList rest
  | .nt r p kids :: rest => .nt r p kids :: flattenList rest

/-- flatten applied to the singleton list [r], as done by the
NonTerminal constructor. -/
def flattenRes (r : PRes) : List PRes :=
  match r with
  | .list xs => flattenList xs
  | .non => [.non]
  | .term a b c d e => [.term a b c d e]
  | .nt a b c => [.nt a b c]

/-- Python str() of a parse result: str(None) is "None", a Terminal
prints its value, a NonTerminal joins its children with " | "
(NonTerminal.__str__).  The list case cannot occur where this function
is applied (results are flattened first, and flatten removes nested
lists); it is given a default to keep the function total. -/
def pyStr : PRes → String
  | .non => "None"
  | .term _ _ v _ _ => v
  | .nt _ _ kids => String.intercalate " | " (pyStrL kids)
  | .list _ => ""
where
  pyStrL : List PRes → List String
  | [] => []
  | x :: rest => pyStr x :: pyStrL rest

/-- The NonTerminal constructor: children are flatten([nodes]). -/
def mkNT (rule : String) (pos : Nat) (nodes : PRes) : PRes :=
  .nt rule pos (flattenRes nodes)

/-- The root-wrapping step at the end of ParsingExpression.parse:
if the node is a rule root and the result is truthy and not already a
Terminal, wrap it in a NonTerminal (with the reduce_tree single-child
unwrap when enabled). -/
def rootWrap (e : Expr) (cpos : Nat) (reduceTree : Bool) (r : PRes) : PRes :=
  if e.root && truthy r && !r.isTerm then
    if reduceTree then
      match r with
      | .list xs =>
          let f := flattenList xs
          match f with
          | [x] => x
          | _ => mkNT e.rule cpos (.list f)
      | _ => r
    else mkNT e.rule cpos r
  else r

/-- Parser._nm_raise: register the candidate NoMatch if no record exists
or the candidate's position is strictly greater, unless comment parsing
is in progress; then raise whatever self.nm now is (the TypeError case
is `raise None`). -/
def nmRaise (cand : NM) (s : PState) : PErr × PState :=
  if s.inParseComment then
    match s.nm with
    | some cur => (.noMatch cur, s)
    | none => (.typeErrNone, s)
  else
    match s.nm with
    | none => (.noMatch cand, { s with nm := some cand })
    | some cur =>
        if cur.position < cand.position then (.noMatch cand, { s with nm := some cand })
        else (.noMatch cur, s)

/-- ParsingExpression._nm_change_rule: rewrite the reported rule of a
propagating NoMatch to this node's rule name when this node is a rule
root, the parser's current position equals the failure's position and
the moving-up flag is set.  The Python code mutates the exception
object, which is usually the same object as parser.nm; the embedding
updates the stored record exactly when it equals the exception. -/
def nmChangeRule (e : Expr) (m : NM) (s : PState) : NM × PState :=
  if e.root && decide (s.position = m.position) && m.up then
    let m' := { m with rule := e.rule }
    (m', if s.nm = some m then { s with nm := some m' } else s)
  else (m, s)

/-- The descent step of ParsingExpression.parse: a pending best-failure
record has its _up flag cleared. -/
def descendNm (s : PState) : PState :=
  match s.nm with
  | some cur => { s with nm := some { cur with up := false } }
  | none => s

/-- The str.lower() call of the Python code, modelled for the ASCII
range (the inputs of interest here). -/
def pyLowerChar (c : Char) : Char :=
  if 'A' ≤ c ∧ c ≤ 'Z' then Char.ofNat (c.toNat + 32) else c

/-- Lower-casing a string character by character. -/
def pyLower (t : String) : String :=
  String.mk (t.data.map pyLowerChar)

/-- StrMatch._parse: compare the next len(to_match) characters with the
literal (case-insensitively when the flag is set); on success return a
Terminal carrying the literal and the suppress flag (set iff the
enclosing expression is exactly a Sequence); on failure call _nm_raise
with the literal and the entry position. -/
def strMatchP (rule : String) (root : Bool) (toMatch : String) (ignoreCase : Bool)
    (s : PState) : Out :=
  let cpos := s.position
  let frag := String.mk ((s.input.drop cpos).take toMatch.length)
  let hit :=
    if ignoreCase then pyLower frag == pyLower toMatch
    else frag == toMatch
  if hit then
    let sup := isSeqNode s.lastPexpr
    .ok (.term (if root then rule else "") cpos toMatch sup none)
      { s with position := cpos + toMatch.length }
  else
    let (pe, s') := nmRaise ⟨toMatch, cpos, true⟩ s
    .err pe s'

/-- EndOfFile._parse: succeed with a suppressed empty Terminal exactly at
the end of the input. -/
def eofP (s : PState) : Out :=
  if s.input.length = s.position then
    .ok (.term "EOF" s.position "" true none) s
  else
    let (pe, s') := nmRaise ⟨"EOF", s.position, true⟩ s
    .err pe s'

/-- Attach a comments subtree to a Terminal (Match.parse after a
successful comment-retry). -/
def attachComments (m : PRes) (c : PRes) : PRes :=
  match m with
  | .term r p v sup _ => .term r p v sup (some c)
  | other => other

/-- Memo-table lookup for a node identity and position. -/
def lookupCache (cache : List ((Nat × Nat) × (CRes × Nat))) (nid pos : Nat) :
    Option (CRes × Nat) :=
  match cache with
  | [] => none
  | (k, v) :: rest => if k = (nid, pos) then some v else lookupCache rest nid pos

/-- The call stack alphabet of the interpreter: the parse entry point of
a node, its node-specific matcher, and the internal loops of the
composite matchers (sequence children, choice alternatives, repetitions,
predicate children, combine children and the comment-matching loop). -/
inductive Call where
  | parse (e : Expr) : Call
  | pinner (e : Expr) : Call
  | seqKids (self : Expr) (es : List Expr) (acc : List PRes) : Call
  | choiceKids (self : Expr) (es : List Expr) (cpos : Nat) : Call
  | zomKids (child : Expr) (acc : List PRes) : Call
  | oomKids (child : Expr) (acc : List PRes) (first : Bool) : Call
  | andKids (es : List Expr) (cpos : Nat) : Call
  | notKids (self : Expr) (es : List Expr) (cpos : Nat) : Call
  | combKids (es : List Expr) (acc : List PRes) : Call
  | commentLoop (acc : List PRes) : Call
deriving Repr

def Call.isCommentLoop : Call → Bool
  | .commentLoop _ => true
  | _ => false

/-- The interpreter.  One step of fuel is consumed by every method call
and every loop iteration; a Python run that terminates is reproduced
exactly by any sufficiently large fuel, and .fuelOut reproduces
divergence.  The .parse case is ParsingExpression.parse for composite
nodes and Match.parse for primitive match nodes; .pinner dispatches to
the node-specific _parse bodies. -/
def run (c : Call) (s : PState) : Nat → Out
  | 0 => .fuelOut
  | n + 1 =>
    match c with
    | .parse e =>
      let s1 := parseIntro s
      if e.isMatchLeaf then
        -- Match.parse
        if s1.inParseComment then run (.pinner e) s1 n
        else
          let p := s1.position
          match run (.pinner e) s1 n with
          | .fuelOut => .fuelOut
          | .ok r s2 => .ok r s2
          | .err .typeErrNone s2 => .err .typeErrNone s2
          | .err (.noMatch nmv) s2 =>
            if !s2.inLexRule && s2.commentsModel.isSome then
              let s3 := { s2 with inParseComment := true,
                                  events := .commentTry s2.position :: s2.events }
              match run (.commentLoop []) s3 n with
              | .fuelOut => .fuelOut
              | .ok (.list comments) s4 =>
                if !comments.isEmpty then
                  match run (.pinner e) s4 n with
                  | .fuelOut => .fuelOut
                  | .ok m s5 =>
                      let m' := attachComments m (mkNT "comment" p (.list comments))
                      .ok m' { s5 with inParseComment := false }
                  | .err pe2 s5 => .err pe2 { s5 with inParseComment := false }
                else
                  let (pe2, s5) := nmRaise nmv s4
                  .err pe2 { s5 with inParseComment := false }
              | .ok r s4 => .ok r { s4 with inParseComment := false }
              | .err pe2 s4 => .err pe2 { s4 with inParseComment := false }
            else
              let (pe2, s3) := nmRaise nmv s2
              .err pe2 s3
      else
        -- ParsingExpression.parse with memoization
        let p := s1.position
        match lookupCache s1.cache e.nid p with
        | some (cr, np) =>
          let s2 := { s1 with position := np }
          match cr with
          | .ok r => .ok r s2
          | .err nmv =>
              let (pe, s3) := nmRaise nmv s2
              .err pe s3
        | none =>
          let s2 := descendNm s1
          let saved := s2.lastPexpr
          let s3 := { s2 with lastPexpr := some e }
          match run (.pinner e) s3 n with
          | .fuelOut => .fuelOut
          | .err (.noMatch nmv) s4 =>
              .err (.noMatch nmv)
                { s4 with position := p,
                          cache := ((e.nid, p), (.err nmv, p)) :: s4.cache,
                          lastPexpr := saved }
          | .err .typeErrNone s4 =>
              .err .typeErrNone { s4 with lastPexpr := saved }
          | .ok r s4 =>
              let s5 := { s4 with lastPexpr := saved }
              let r' := rootWrap e p s5.reduceTree r
              .ok r' { s5 with cache := ((e.nid, p), (.ok r', s5.position)) :: s5.cache }
    | .pinner e =>
      let s0 := { s with events := .matcher e.nid s.position :: s.events }
      match e with
      | .strMatch _ rule root lit ic => strMatchP rule root lit ic s0
      | .endOfFile _ _ _ => eofP s0
      | .empty _ _ _ => .ok .non s0
      | .sequence _ _ _ kids => run (.seqKids e kids []) s0 n
      | .orderedChoice _ _ _ kids => run (.choiceKids e kids s0.position) s0 n
      | .opt _ _ _ child =>
          let cpos := s0.position
          match run (.parse child) s0 n with
          | .ok r s' => .ok r s'
          | .err (.noMatch _) s' => .ok .non { s' with position := cpos }
          | .err .typeErrNone s' => .err .typeErrNone s'
          | .fuelOut => .fuelOut
      | .zeroOrMore _ _ _ child => run (.zomKids child []) s0 n
      | .oneOrMore _ _ _ child => run (.oomKids child [] false) s0 n
      | .andPred _ _ _ kids => run (.andKids kids s0.position) s0 n
      | .notPred _ _ _ kids => run (.notKids e kids s0.position) s0 n
      | .combine _ _ _ kids =>
          let old := s0.inLexRule
          let cpos := s0.position
          let s1 := { s0 with inLexRule := true }
          match run (.combKids kids []) s1 n with
          | .ok (.list rs) s2 =>
              let t := PRes.term (if e.root then e.rule else "") cpos
                (String.join ((flattenList rs).map pyStr)) false none
              .ok t { s2 with inLexRule := old }
          | .ok r s2 => .ok r { s2 with inLexRule := old }
          | .err (.noMatch nmv) s2 =>
              .err (.noMatch nmv) { s2 with position := cpos, inLexRule := old }
          | .err .typeErrNone s2 => .err .typeErrNone { s2 with inLexRule := old }
          | .fuelOut => .fuelOut
    | .seqKids self es acc =>
      match es with
      | [] => .ok (.list acc) s
      | e :: rest =>
        match run (.parse e) s n with
        | .ok r s' =>
            run (.seqKids self rest (if truthy r then acc ++ [r] else acc)) s' n
        | .err (.noMatch m) s' =>
            let (m', s'') := nmChangeRule self m s'
            .err (.noMatch m') s''
        | .err .typeErrNone s' => .err .typeErrNone s'
        | .fuelOut => .fuelOut
    | .choiceKids self es cpos =>
      match es with
      | [] =>
        match s.nm with
        | none => .err .typeErrNone s
        | some v => .err (.noMatch v) s
      | e :: rest =>
        match run (.parse e) s n with
        | .ok r s' => .ok r s'
        | .err (.noMatch m) s' =>
            let s1 := { s' with position := cpos }
            let (_, s2) := nmChangeRule self m s1
            run (.choiceKids self rest cpos) s2 n
        | .err .typeErrNone s' => .err .typeErrNone s'
        | .fuelOut => .fuelOut
    | .zomKids child acc =>
      let cpos := s.position
      match run (.parse child) s n with
      | .ok r s' => run (.zomKids child (acc ++ [r])) s' n
      | .err (.noMatch _) s' => .ok (.list acc) { s' with position := cpos }
      | .err .typeErrNone s' => .err .typeErrNone s'
      | .fuelOut => .fuelOut
    | .oomKids child acc first =>
      let cpos := s.position
      match run (.parse child) s n with
      | .ok r s' => run (.oomKids child (acc ++ [r]) true) s' n
      | .err (.noMatch m) s' =>
          if first then .ok (.list acc) { s' with position := cpos }
          else .err (.noMatch m) { s' with position := cpos }
      | .err .typeErrNone s' => .err .typeErrNone s'
      | .fuelOut => .fuelOut
    | .andKids es cpos =>
      match es with
      | [] => .ok .non { s with position := cpos }
      | e :: rest =>
        match run (.parse e) s n with
        | .ok _ s' => run (.andKids rest cpos) s' n
        | .err (.noMatch m) s' => .err (.noMatch m) { s' with position := cpos }
        | .err .typeErrNone s' => .err .typeErrNone s'
        | .fuelOut => .fuelOut
    | .notKids self es cpos =>
      match es with
      | [] =>
        let s1 := { s with position := cpos }
        let (pe, s2) := nmRaise ⟨notName self, cpos, true⟩ s1
        .err pe s2
      | e :: rest =>
        match run (.parse e) s n with
        | .ok _ s' => run (.notKids self rest cpos) s' n
        | .err (.noMatch _) s' => .ok .non { s' with position := cpos }
        | .err .typeErrNone s' => .err .typeErrNone s'
        | .fuelOut => .fuelOut
    | .combKids es acc =>
      match es with
      | [] => .ok (.list acc) s
      | e :: rest =>
        match run (.parse e) s n with
        | .ok r s' => run (.combKids rest (acc ++ [r])) s' n
        | .err pe s' => .err pe s'
        | .fuelOut => .fuelOut
    | .commentLoop acc =>
      match s.commentsModel with
      | none => .ok (.list acc) s
      | some cm =>
        match run (.parse cm) s n with
        | .ok c s' =>
            let s'' := skipWs s'
            run (.commentLoop (acc ++ [c]))
              { s'' with events := .wsSkip s'.position :: s''.events } n
        | .err (.noMatch _) s' => .ok (.list acc) s'
        | .err .typeErrNone s' => .err .typeErrNone s'
        | .fuelOut => .fuelOut

/-- The default whitespace set of the parser. -/
def defaultWs : List Char := '\t' :: '\n' :: '\r' :: ' ' :: []

/-- The state at the start of Parser.parse: position 0, no failure
record, cleared memo tables. -/
def initState (input : String) (commentsModel : Option Expr)
    (skipws reduceTree : Bool) : PState :=
  { input := input.toList, position := 0, nm := none, inLexRule := false,
    inParseComment := false, lastPexpr := none, skipws := skipws,
    ws := defaultWs, reduceTree := reduceTree, commentsModel := commentsModel,
    cache := [], events := [] }

/-- Parser.parse: evaluate the parser model from a fresh state. -/
def runParser (model : Expr) (commentsModel : Option Expr) (input : String)
    (skipws reduceTree : Bool) (fuel : Nat) : Out :=
  run (.parse model) (initState input commentsModel skipws reduceTree) fuel

/-- A value flowing through the semantic-action walker: a Python
string, a parse-tree node, or None. -/
inductive SVal where
  | str (s : String) : SVal
  | tree (t : PRes) : SVal
  | non : SVal
deriving Repr

/-- The isstr check of the walker. -/
def isStrV : SVal → Bool
  | .str _ => true
  | _ => false

/-- The scan over child results in the default first_pass: remembers
the first non-string child; on meeting a second one it breaks with the
string form of the node; when the loop completes, the for-else clause
returns the remembered child, which is None when every child was a
string. -/
def fpLoop (node : PRes) : List SVal → Option SVal → SVal
  | [], last =>
      match last with
      | some v => v
      | none => .non
  | c :: rest, last =>
      if isStrV c then fpLoop node rest last
      else
        match last with
        | none => fpLoop node rest (some c)
        | some _ => .str (pyStr node)

/-- SemanticAction.first_pass, the default semantic action: a Terminal
becomes its string value or None when suppressed; otherwise a single
child result is returned as is, and the loop above handles the other
cases. -/
def firstPass (node : PRes) (nodes : List SVal) : SVal :=
  match node with
  | .term _ _ v sup _ => if sup then .non else .str v
  | _ =>
      match nodes with
      | [x] => x
      | _ => fpLoop node nodes none

/-- A user semantic action: the first-pass transform and whether a
second_pass hook exists.  Second-pass hooks mutate user objects only,
so they have no effect on the ASG value getASG returns and are not
modelled further. -/
structure SAct where
  first : PRes → List SVal → SVal
  hasSecond : Bool

/-- The sem_actions argument of getASG: a dict or some non-dict
object. -/
inductive SemArg where
  | dict (entries : List (String × SAct)) : SemArg
  | nonDict : SemArg

/-- The generic exceptions getASG can raise, and the walker's fuel
marker. -/
inductive GErr where
  | emptyTree : GErr
  | noActions : GErr
  | notDict : GErr
  | attrError : GErr
  | outOfFuel : GErr
deriving Repr, DecidableEq

def lookupAct : List (String × SAct) → String → Option SAct
  | [], _ => none
  | (k, a) :: rest, r => if k = r then some a else lookupAct rest r

/-- A walker call: one node or a list of children. -/
inductive WCall where
  | one (t : PRes) : WCall
  | many (ts : List PRes) : WCall

/-- The tree_walk closure of getASG: children are walked first, None
results are dropped, then the rule's action (or the default) is
applied.  A parse tree that is a plain list or None has no rule
attribute, which raises an AttributeError in Python. -/
def walkRun (acts : List (String × SAct)) :
    WCall → Nat → Except GErr (SVal ⊕ List SVal)
  | _, 0 => .error .outOfFuel
  | .one t, n + 1 =>
    match t with
    | .non => .error .attrError
    | .list _ => .error .attrError
    | .term rule p v sup c =>
        match lookupAct acts rule with
        | some a => .ok (.inl (a.first (.term rule p v sup c) []))
        | none => .ok (.inl (firstPass (.term rule p v sup c) []))
    | .nt rule p kids =>
        match walkRun acts (.many kids) n with
        | .error g => .error g
        | .ok (.inr children) =>
            match lookupAct acts rule with
            | some a => .ok (.inl (a.first (.nt rule p kids) children))
            | none => .ok (.inl (firstPass (.nt rule p kids) children))
        | .ok (.inl _) => .error .outOfFuel
  | .many ts, n + 1 =>
    match ts with
    | [] => .ok (.inr [])
    | t :: rest =>
      match walkRun acts (.one t) n with
      | .error g => .error g
      | .ok (.inl c) =>
          match walkRun acts (.many rest) n with
          | .error g => .error g
          | .ok (.inr cs) =>
              .ok (.inr (match c with | .non => cs | c' => c' :: cs))
          | .ok (.inl _) => .error .outOfFuel
      | .ok (.inr _) => .error .outOfFuel

/-- Parser.getASG: guard on the truthiness of the stored parse tree,
substitute the registered actions when no argument is given (raising
when none were registered), reject non-dict arguments, then walk. -/
def getASG (parseTree : Option PRes) (registered : List (String × SAct))
    (arg : Option SemArg) (fuel : Nat) : Except GErr SVal :=
  match parseTree with
  | none => .error .emptyTree
  | some t =>
    if truthy t = false then .error .emptyTree
    else
      match arg with
      | none =>
          if registered.isEmpty then .error .noActions
          else
            match walkRun registered (.one t) fuel with
            | .ok (.inl v) => .ok v
            | .ok (.inr _) => .error .outOfFuel
            | .error g => .error g
      | some (.dict entries) =>
          match walkRun entries (.one t) fuel with
          | .ok (.inl v) => .ok v
          | .ok (.inr _) => .error .outOfFuel
          | .error g => .error g
      | some .nonDict => .error .notDict

/-- The raised exception of an outcome, if any. -/
def outErr : Out → Option PErr
  | .err e _ => some e
  | _ => none

/-- The returned result of an outcome, if any. -/
def outRes : Out → Option PRes
  | .ok r _ => some r
  | _ => none

/-- The parser state of an outcome, if the evaluation did not run out of
fuel. -/
def outState : Out → Option PState
  | .ok _ s => some s
  | .err _ s => some s
  | .fuelOut => none

/-- Well-formedness of a memo table: every recorded failure stores the
entry position itself as the new position (exactly what
ParsingExpression.parse writes on the failure path). -/
def cacheOkB (cache : List ((Nat × Nat) × (CRes × Nat))) : Bool :=
  cache.all fun kv =>
    match kv with
    | ((_, p), (.err _, np)) => np == p
    | _ => true

/-- Ghost matcher events only: the sublist of events recording runs of
node-specific matchers. -/
def matcherEvents (l : List Ev) : List Ev :=
  l.filter fun ev =>
    match ev with
    | .matcher _ _ => true
    | _ => false

/- Frame lemmas: the state-editing helpers touch only the fields they
are about. -/

theorem nmRaise_snd (cand : NM) (s : PState) :
    ∃ v, (nmRaise cand s).2 = { s with nm := v } := by
  obtain ⟨i, p, nm, lx, pc, lp, sw, w, rt, cm, ca, ev⟩ := s
  unfold nmRaise
  rcases nm with _ | cur <;> rcases pc with _ | _ <;>
    simp only [] <;>
    first
      | exact ⟨_, rfl⟩
      | (by_cases hp : cur.position < cand.position <;> simp only [hp, if_true, if_false] <;> exact ⟨_, rfl⟩)

theorem parseIntro_frame (s : PState) :
    ∃ p ev, parseIntro s = { s with position := p, events := ev } := by
  obtain ⟨i, p, nm, lx, pc, lp, sw, w, rt, cm, ca, ev⟩ := s
  unfold parseIntro skipWs
  rcases lx with _ | _ <;> rcases sw with _ | _ <;> simp only [] <;> exact ⟨_, _, rfl⟩

theorem strMatchP_err_frame (rule : String) (root : Bool) (lit : String)
    (ic : Bool) (s : PState) (pe : PErr) (s' : PState)
    (h : strMatchP rule root lit ic s = .err pe s') :
    ∃ v, s' = { s with nm := v } := by
  unfold strMatchP at h
  by_cases hm : (if ic then pyLower (String.mk ((s.input.drop s.position).take lit.length)) == pyLower lit
                 else (String.mk ((s.input.drop s.position).take lit.length)) == lit) = true
  · simp only [hm, if_true] at h
    exact absurd h (by simp)
  · simp only [hm, if_false] at h
    obtain ⟨v, hv⟩ := nmRaise_snd ⟨lit, s.position, true⟩ s
    injection h with h1 h2
    exact ⟨v, by rw [← h2, hv]⟩

theorem eofP_err_frame (s : PState) (pe : PErr) (s' : PState)
    (h : eofP s = .err pe s') : ∃ v, s' = { s with nm := v } := by
  unfold eofP at h
  by_cases hm : s.input.length = s.position
  · simp only [hm, if_true] at h
    exact absurd h (by simp)
  · simp only [hm, if_false] at h
    obtain ⟨v, hv⟩ := nmRaise_snd ⟨"EOF", s.position, true⟩ s
    exact ⟨v, by rw [← hv]; exact (Out.err.injEq _ _ _ _).mp h.symm |>.2⟩

theorem lookupCache_cacheOk (cache : List ((Nat × Nat) × (CRes × Nat)))
    (nid pos : Nat) (v : NM) (np : Nat)
    (hok : cacheOkB cache = true)
    (h : lookupCache cache nid pos = some (.err v, np)) : np = pos := by
  induction cache with
  | nil => simp [lookupCache] at h
  | cons kv rest ih =>
      obtain ⟨k, cv⟩ := kv
      simp only [lookupCache] at h
      simp only [cacheOkB, List.all_cons] at hok
      by_cases hk : k = (nid, pos)
      · simp only [hk, if_true, Option.some.injEq] at h
        subst h
        subst hk
        obtain ⟨h1, _⟩ := Bool.and_eq_true_iff.mp hok
        simpa using h1
      · simp only [hk, if_false] at h
        exact ih (Bool.and_eq_true_iff.mp hok).2 h

theorem pinnerLeaf_err_frame (e : Expr) (s : PState) (n : Nat) (pe : PErr)
    (s' : PState) (hleaf : e.isMatchLeaf = true)
    (h : run (.pinner e) s n = .err pe s') :
    ∃ vv, s' = { s with nm := vv,
                        events := .matcher e.nid s.position :: s.events } := by
  match n with
  | 0 => exact absurd h (by simp [run])
  | n + 1 =>
    simp only [run] at h
    match e with
    | .sequence _ _ _ _ | .orderedChoice _ _ _ _ | .opt _ _ _ _
    | .zeroOrMore _ _ _ _ | .oneOrMore _ _ _ _ | .andPred _ _ _ _
    | .notPred _ _ _ _ | .empty _ _ _ | .combine _ _ _ _ =>
        simp [Expr.isMatchLeaf] at hleaf
    | .strMatch i rule root lit ic =>
        obtain ⟨v, hv⟩ := strMatchP_err_frame rule root lit ic
          { s with events := .matcher i s.position :: s.events } pe s' h
        exact ⟨v, hv⟩
    | .endOfFile i _ _ =>
        obtain ⟨v, hv⟩ := eofP_err_frame
          { s with events := .matcher i s.position :: s.events } pe s' h
        exact ⟨v, hv⟩

theorem skipCount_after (ws : List Char) : ∀ t : List Char,
    skipCount ws (t.drop (skipCount ws t)) = 0 := by
  intro t
  induction t with
  | nil => rfl
  | cons c rest ih =>
      by_cases hc : c ∈ ws
      · simp [skipCount, hc, ih]
      · simp [skipCount, hc]

theorem parseIntro_pos_stable (s t : PState) (hi : t.input = s.input)
    (hw : t.ws = s.ws) (hsw : t.skipws = s.skipws)
    (hlx : s.inLexRule = false)
    (hp : t.position = (parseIntro s).position) :
    (parseIntro t).position = t.position := by
  by_cases htl : t.inLexRule = true
  · simp [parseIntro, htl]
  · simp only [parseIntro, htl, Bool.false_eq_true, if_false]
    show (skipWs t).position = t.position
    unfold skipWs
    by_cases hswt : t.skipws = true
    · simp only [hswt, if_true]
      have hss : s.skipws = true := by rw [← hsw]; exact hswt
      have hz : skipCount t.ws (t.input.drop t.position) = 0 := by
        rw [hi, hw, hp]
        unfold parseIntro skipWs
        simp only [hlx, Bool.false_eq_true, if_false, hss, if_true]
        have h0 := skipCount_after s.ws (s.input.drop s.position)
        rw [List.drop_drop] at h0
        exact h0
      show t.position + skipCount t.ws (t.input.drop t.position) = t.position
      rw [hz]
      omega
    · simp [hswt]

theorem commentLoop_ok_shape : ∀ (k : Nat) (acc : List PRes) (s : PState)
    (r : PRes) (s' : PState), run (.commentLoop acc) s k = .ok r s' →
    ∃ l, r = .list l ∧ acc.length ≤ l.length := by
  intro k
  induction k with
  | zero =>
      intro acc s r s' h
      simp [run] at h
  | succ k ih =>
      intro acc s r s' h
      simp only [run] at h
      cases hcm : s.commentsModel with
      | none =>
          rw [hcm] at h
          simp only [Out.ok.injEq] at h
          exact ⟨acc, h.1.symm, le_refl _⟩
      | some cm =>
          rw [hcm] at h
          simp only [] at h
          cases hq : run (.parse cm) s k with
          | ok c s2 =>
              rw [hq] at h
              obtain ⟨l, hl, hlen⟩ := ih (acc ++ [c]) _ r s' h
              refine ⟨l, hl, ?_⟩
              simp only [List.length_append, List.length_cons,
                List.length_nil] at hlen
              omega
          | err pe s2 =>
              rw [hq] at h
              cases pe with
              | noMatch w =>
                  simp only [Out.ok.injEq] at h
                  exact ⟨acc, h.1.symm, le_refl _⟩
              | typeErrNone => simp at h
          | fuelOut =>
              rw [hq] at h
              simp at h

theorem commentLoop_err_typeErr : ∀ (k : Nat) (acc : List PRes) (s : PState)
    (pe : PErr) (s' : PState), run (.commentLoop acc) s k = .err pe s' →
    pe = .typeErrNone := by
  intro k
  induction k with
  | zero =>
      intro acc s pe s' h
      simp [run] at h
  | succ k ih =>
      intro acc s pe s' h
      simp only [run] at h
      cases hcm : s.commentsModel with
      | none =>
          rw [hcm] at h
          simp at h
      | some cm =>
          rw [hcm] at h
          simp only [] at h
          cases hq : run (.parse cm) s k with
          | ok c s2 =>
              rw [hq] at h
              exact ih (acc ++ [c]) _ pe s' h
          | err pe2 s2 =>
              rw [hq] at h
              cases pe2 with
              | noMatch w => simp at h
              | typeErrNone =>
                  simp only [Out.err.injEq] at h
                  exact h.1.symm
          | fuelOut =>
              rw [hq] at h
              simp at h

theorem commentLoop_zero (k : Nat) (s : PState) (s4 : PState)
    (h : run (.commentLoop []) s k = .ok (.list []) s4) :
    (s.commentsModel = none ∧ s4 = s) ∨
    ∃ cm j w, k = j + 1 ∧ s.commentsModel = some cm ∧
      run (.parse cm) s j = .err (.noMatch w) s4 := by
  cases k with
  | zero => simp [run] at h
  | succ j =>
      simp only [run] at h
      cases hcm : s.commentsModel with
      | none =>
          rw [hcm] at h
          simp only [Out.ok.injEq] at h
          exact Or.inl ⟨rfl, h.2.symm⟩
      | some cm =>
          rw [hcm] at h
          simp only [] at h
          cases hq : run (.parse cm) s j with
          | ok c s2 =>
              rw [hq] at h
              obtain ⟨l, hl, hlen⟩ := commentLoop_ok_shape j ([] ++ [c]) _ _ s4 h
              injection hl with hl2
              rw [← hl2] at hlen
              simp at hlen
          | err pe s2 =>
              rw [hq] at h
              cases pe with
              | noMatch w =>
                  simp only [Out.ok.injEq] at h
                  refine Or.inr ⟨cm, j, w, rfl, rfl, ?_⟩
                  rw [← h.2]
                  exact hq
              | typeErrNone => simp at h
          | fuelOut =>
              rw [hq] at h
              simp at h

theorem parse_restore : ∀ (n : Nat) (e : Expr) (s : PState) (v : NM)
    (s' : PState),
    cacheOkB s.cache = true →
    run (.parse e) s n = .err (.noMatch v) s' →
    s'.position = (parseIntro s).position ∨
    (e.isMatchLeaf = true ∧ s.inParseComment = false ∧ s.inLexRule = false ∧
      ∃ m nmv s2 comments s4 sr,
        n = m + 1 ∧
        run (.pinner e) (parseIntro s) m = .err (.noMatch nmv) s2 ∧
        run (.commentLoop []) { s2 with
          inParseComment := true,
          events := .commentTry s2.position :: s2.events } m
          = .ok (.list comments) s4 ∧
        comments ≠ [] ∧
        run (.pinner e) s4 m = .err (.noMatch v) sr ∧
        s' = { sr with inParseComment := false }) := by
  intro n
  induction n using Nat.strong_induction_on with
  | _ n ih =>
    intro e s v s' hcache hrun
    cases n with
    | zero => exact absurd hrun (by simp [run])
    | succ m =>
      obtain ⟨pp, ev, hintro⟩ := parseIntro_frame s
      simp only [run] at hrun
      cases he : e.isMatchLeaf with
      | true =>
        simp only [he, if_true] at hrun
        by_cases hpc1 : (parseIntro s).inParseComment = true
        · left
          simp only [hpc1, eq_self_iff_true, if_true] at hrun
          obtain ⟨vv, hvv⟩ := pinnerLeaf_err_frame e (parseIntro s) m _ s' he hrun
          rw [hvv]
        · simp only [hpc1, Bool.false_eq_true, if_false] at hrun
          have hsc : s.inParseComment = false := by
            rw [hintro] at hpc1
            simpa using hpc1
          cases hp : run (.pinner e) (parseIntro s) m with
          | ok r s2 =>
              rw [hp] at hrun
              exact absurd hrun (by simp)
          | fuelOut =>
              rw [hp] at hrun
              exact absurd hrun (by simp)
          | err pe s2 =>
            rw [hp] at hrun
            obtain ⟨vv, hvv⟩ := pinnerLeaf_err_frame e (parseIntro s) m _ s2 he hp
            cases pe with
            | typeErrNone => exact absurd hrun (by simp)
            | noMatch nmv =>
              cases hcond : (!s2.inLexRule && s2.commentsModel.isSome) with
              | false =>
                simp only [hcond, Bool.false_eq_true, if_false] at hrun
                left
                obtain ⟨v2, hv2⟩ := nmRaise_snd nmv s2
                injection hrun with h1 h2
                rw [← h2, hv2, hvv]
              | true =>
                simp only [hcond, if_true] at hrun
                rw [Bool.and_eq_true] at hcond
                obtain ⟨ha, hb⟩ := hcond
                have hlx2 : s2.inLexRule = false := by simpa using ha
                have hlxF : s.inLexRule = false := by
                  have hq1 : s2.inLexRule = (parseIntro s).inLexRule := by rw [hvv]
                  have hq2 : (parseIntro s).inLexRule = s.inLexRule := by rw [hintro]
                  rw [hq1, hq2] at hlx2
                  exact hlx2
                cases hcl : run (.commentLoop [])
                    { s2 with
                      inParseComment := true,
                      events := .commentTry s2.position :: s2.events } m with
                | fuelOut =>
                    rw [hcl] at hrun
                    exact absurd hrun (by simp)
                | err pe2 s4 =>
                    rw [hcl] at hrun
                    have hte := commentLoop_err_typeErr m [] _ pe2 s4 hcl
                    subst hte
                    exact absurd hrun (by simp)
                | ok r s4 =>
                    rw [hcl] at hrun
                    cases r with
                    | non => exact absurd hrun (by simp)
                    | term a b c d cm => exact absurd hrun (by simp)
                    | nt a b c => exact absurd hrun (by simp)
                    | list comments =>
                      cases comments with
                      | nil =>
                        simp only [List.isEmpty_nil, Bool.not_true,
                          Bool.false_eq_true, if_false] at hrun
                        left
                        obtain ⟨v5, hv5⟩ := nmRaise_snd nmv s4
                        simp only [Out.err.injEq] at hrun
                        obtain ⟨h1, h2⟩ := hrun
                        rcases commentLoop_zero m _ s4 hcl with ⟨hnone, _⟩ |
                          ⟨cm, j, w, hm, hcm, hq2⟩
                        · have hnone2 : s2.commentsModel = none := hnone
                          rw [hnone2] at hb
                          simp at hb
                        · have hcache3 : cacheOkB ({ s2 with
                              inParseComment := true,
                              events := .commentTry s2.position :: s2.events }
                              : PState).cache = true := by
                            show cacheOkB s2.cache = true
                            rw [hvv]
                            show cacheOkB (parseIntro s).cache = true
                            rw [hintro]
                            exact hcache
                          have hIH := ih j (by omega) cm _ w s4 hcache3 hq2
                          rcases hIH with hL | hR
                          · rw [← h2, hv5]
                            show s4.position = (parseIntro s).position
                            rw [hL]
                            have hstable := parseIntro_pos_stable s
                              { s2 with
                                inParseComment := true,
                                events := .commentTry s2.position :: s2.events }
                              (by rw [hvv, hintro]) (by rw [hvv, hintro])
                              (by rw [hvv, hintro]) hlxF (by rw [hvv])
                            rw [hstable]
                            show s2.position = (parseIntro s).position
                            rw [hvv]
                          · obtain ⟨hx1, hfpc, hx2⟩ := hR
                            exact absurd hfpc (by simp)
                      | cons c cs =>
                        simp only [List.isEmpty_cons, Bool.not_false,
                          if_true] at hrun
                        cases hrt : run (.pinner e) s4 m with
                        | fuelOut =>
                            rw [hrt] at hrun
                            exact absurd hrun (by simp)
                        | ok r2 s5 =>
                            rw [hrt] at hrun
                            exact absurd hrun (by simp)
                        | err pe3 sr =>
                          rw [hrt] at hrun
                          cases pe3 with
                          | typeErrNone => exact absurd hrun (by simp)
                          | noMatch v3 =>
                            simp only [Out.err.injEq,
                              PErr.noMatch.injEq] at hrun
                            obtain ⟨h1, h2⟩ := hrun
                            right
                            refine ⟨rfl, hsc, hlxF, m, nmv, s2, c :: cs, s4, sr,
                              rfl, hp, hcl, by simp, ?_, h2.symm⟩
                            rw [← h1]
                            exact hrt
      | false =>
        left
        simp only [he, Bool.false_eq_true, if_false] at hrun
        cases hlk : lookupCache (parseIntro s).cache e.nid
            (parseIntro s).position with
        | none =>
          rw [hlk] at hrun
          cases hp : run (.pinner e)
              { descendNm (parseIntro s) with lastPexpr := some e } m with
          | ok r s4 =>
              rw [hp] at hrun
              exact absurd hrun (by simp)
          | fuelOut =>
              rw [hp] at hrun
              exact absurd hrun (by simp)
          | err pe s4 =>
              rw [hp] at hrun
              cases pe with
              | typeErrNone => exact absurd hrun (by simp)
              | noMatch nmv =>
                  injection hrun with h1 h2
                  rw [← h2]
        | some cv =>
          obtain ⟨cr, np⟩ := cv
          rw [hlk] at hrun
          cases cr with
          | ok r => exact absurd hrun (by simp)
          | err nmv =>
              have hnp : np = (parseIntro s).position := by
                have hc : (parseIntro s).cache = s.cache := by rw [hintro]
                exact lookupCache_cacheOk s.cache e.nid (parseIntro s).position
                  nmv np hcache (by rw [← hc]; exact hlk)
              obtain ⟨v2, hv2⟩ := nmRaise_snd nmv { parseIntro s with position := np }
              simp only [] at hrun
              injection hrun with h1 h2
              rw [← h2, hv2]
              exact hnp

/-- C1, counterexample: for the primitive StrMatch node for literal "a"
with a comment model matching "#", on input "#b" the match fails at the
entry position 0, the comment-retry consumes the comment (advancing to
position 1), the retry fails again, and the NoMatch propagates with the
parser position left at 1, not at the entry position 0. -/
theorem c1_counterexample :
    outErr (run (.parse (.strMatch 1 "" false "a" false))
      (initState "#b" (some (.strMatch 9 "" false "#" false)) true false) 30)
      = some (.noMatch ⟨"a", 0, true⟩) ∧
    (outState (run (.parse (.strMatch 1 "" false "a" false))
      (initState "#b" (some (.strMatch 9 "" false "#" false)) true false) 30)).map
        PState.position = some 1 ∧
    (parseIntro (initState "#b" (some (.strMatch 9 "" false "#" false))
        true false)).position = 0 := by
  exact ⟨rfl, rfl, rfl⟩

/-- C1, amended: if E.parse raises NoMatch then the parser position
immediately after the raise equals the entry position (the position
after the implicit whitespace skip) on every path — for composite nodes
(given a well-formed memo table) and for primitive Match nodes,
including the comment branch when no comment is matched — except
exactly when the comment branch consumes at least one comment and the
retried primitive fails again: then the failure propagates with the
position left by the failed retry after the comments were consumed
(see the counterexample). -/
theorem c1_amended (n : Nat) (e : Expr) (s : PState) (v : NM) (s' : PState)
    (hrun : run (.parse e) s n = .err (.noMatch v) s')
    (hcache : cacheOkB s.cache = true) :
    s'.position = (parseIntro s).position ∨
    (e.isMatchLeaf = true ∧ s.inParseComment = false ∧ s.inLexRule = false ∧
      ∃ m nmv s2 comments s4 sr,
        n = m + 1 ∧
        run (.pinner e) (parseIntro s) m = .err (.noMatch nmv) s2 ∧
        run (.commentLoop []) { s2 with
          inParseComment := true,
          events := .commentTry s2.position :: s2.events } m
          = .ok (.list comments) s4 ∧
        comments ≠ [] ∧
        run (.pinner e) s4 m = .err (.noMatch v) sr ∧
        s' = { sr with inParseComment := false }) :=
  parse_restore n e s v s' hcache hrun

/-- C1, witness for the amended theorem: a composite Sequence node over
the literal "a" fails on input "b" with the position restored to the
entry position 0, and a primitive StrMatch with a comment model "#"
that matches no comment on input "b" (the zero-comment path of the
comment branch) also fails with the position restored to the entry
position 0. -/
theorem c1_amended_witness :
    (outState (run (.parse (.sequence 0 "" false [.strMatch 1 "" false "a" false]))
        (initState "b" none true false) 10)).map PState.position
      = some (parseIntro (initState "b" none true false)).position
    ∧ (outState (run (.parse (.strMatch 1 "" false "a" false))
        (initState "b" (some (.strMatch 9 "" false "#" false)) true false)
          10)).map PState.position
      = some (parseIntro (initState "b"
          (some (.strMatch 9 "" false "#" false)) true false)).position := by
  constructor
  · have hcomp : outErr (run (.parse (.sequence 0 "" false
        [.strMatch 1 "" false "a" false])) (initState "b" none true false) 10)
        = some (.noMatch ⟨"a", 0, true⟩) := rfl
    cases hq : run (.parse (.sequence 0 "" false [.strMatch 1 "" false "a" false]))
        (initState "b" none true false) 10 with
    | ok r s' =>
        rw [hq] at hcomp
        exact absurd hcomp (by simp [outErr])
    | fuelOut =>
        rw [hq] at hcomp
        exact absurd hcomp (by simp [outErr])
    | err pe s' =>
      cases pe with
      | typeErrNone =>
          rw [hq] at hcomp
          exact absurd hcomp (by simp [outErr])
      | noMatch v =>
        rcases c1_amended 10 (.sequence 0 "" false [.strMatch 1 "" false "a" false])
            (initState "b" none true false) v s' hq rfl with hL | hR
        · exact congrArg some hL
        · obtain ⟨hleaf, hrest⟩ := hR
          simp [Expr.isMatchLeaf] at hleaf
  · have herr2 : outErr (run (.parse (.strMatch 1 "" false "a" false))
        (initState "b" (some (.strMatch 9 "" false "#" false)) true false) 10)
        = some (.noMatch ⟨"a", 0, true⟩) := rfl
    cases hq : run (.parse (.strMatch 1 "" false "a" false))
        (initState "b" (some (.strMatch 9 "" false "#" false)) true false) 10 with
    | ok r s' =>
        rw [hq] at herr2
        exact absurd herr2 (by simp [outErr])
    | fuelOut =>
        rw [hq] at herr2
        exact absurd herr2 (by simp [outErr])
    | err pe s' =>
      cases pe with
      | typeErrNone =>
          rw [hq] at herr2
          exact absurd herr2 (by simp [outErr])
      | noMatch v =>
        rcases c1_amended 10 (.strMatch 1 "" false "a" false)
            (initState "b" (some (.strMatch 9 "" false "#" false)) true false)
            v s' hq rfl with hL | hR
        · exact congrArg some hL
        · obtain ⟨hx1, hx2, hx3, m, nmv, s2, comments, s4, sr,
            hn, hp, hcl, hne, hrt, hs⟩ := hR
          have hm : m = 9 := by omega
          subst hm
          have hpin : run (.pinner (.strMatch 1 "" false "a" false))
              (parseIntro (initState "b"
                (some (.strMatch 9 "" false "#" false)) true false)) 9
              = .err (.noMatch ⟨"a", 0, true⟩)
                { input := ['b'], position := 0,
                  nm := some ⟨"a", 0, true⟩, inLexRule := false,
                  inParseComment := false, lastPexpr := none, skipws := true,
                  ws := defaultWs, reduceTree := false,
                  commentsModel := some (.strMatch 9 "" false "#" false),
                  cache := [],
                  events := [.matcher 1 0, .wsSkip 0] } := rfl
          have hss := hpin.symm.trans hp
          simp only [Out.err.injEq, PErr.noMatch.injEq] at hss
          obtain ⟨hnm2, hs2⟩ := hss
          subst hs2
          have hclc : outRes (run (.commentLoop [])
              { input := ['b'], position := 0,
                nm := some ⟨"a", 0, true⟩, inLexRule := false,
                inParseComment := true, lastPexpr := none, skipws := true,
                ws := defaultWs, reduceTree := false,
                commentsModel := some (.strMatch 9 "" false "#" false),
                cache := [],
                events := [.commentTry 0, .matcher 1 0, .wsSkip 0] } 9)
              = some (.list []) := rfl
          have hres := congrArg outRes hcl
          have hcc := hclc.symm.trans hres
          simp only [outRes, Option.some.injEq, PRes.list.injEq] at hcc
          exact absurd hcc.symm hne

theorem matcherEvents_parseIntro (s : PState) :
    matcherEvents (parseIntro s).events = matcherEvents s.events := by
  unfold parseIntro skipWs
  by_cases hl : s.inLexRule
  · simp [hl]
  · by_cases hw : s.skipws <;> simp [hl, hw, matcherEvents, List.filter]

theorem nmRaise_self (v : NM) (st : PState) (h : st.nm = some v) :
    nmRaise v st = (.noMatch v, st) := by
  unfold nmRaise
  by_cases hc : st.inParseComment = true
  · simp [hc, h]
  · simp [hc, h, lt_irrefl]

theorem parse_cache_hit_ok (m : Nat) (e : Expr) (s : PState) (r : PRes) (np : Nat)
    (he : e.isMatchLeaf = false)
    (hlook : lookupCache (parseIntro s).cache e.nid (parseIntro s).position
        = some (.ok r, np)) :
    run (.parse e) s (m + 1) = .ok r { parseIntro s with position := np } := by
  simp only [run, he, Bool.false_eq_true, if_false]
  rw [hlook]

theorem parse_cache_hit_err (m : Nat) (e : Expr) (s : PState) (v : NM) (np : Nat)
    (he : e.isMatchLeaf = false)
    (hlook : lookupCache (parseIntro s).cache e.nid (parseIntro s).position
        = some (.err v, np))
    (hnm : (parseIntro s).nm = some v) :
    run (.parse e) s (m + 1)
      = .err (.noMatch v) { parseIntro s with position := np } := by
  have hgen : ∀ st : PState, st.nm = some v →
      Out.err (nmRaise v st).1 (nmRaise v st).2 = Out.err (.noMatch v) st := by
    intro st h
    rw [nmRaise_self v st h]
  simp only [run, he, Bool.false_eq_true, if_false]
  rw [hlook]
  exact hgen _ hnm

/-- C3, counterexample: a primitive StrMatch node (literal "a", input
"a") is evaluated successfully, yet afterwards its memo table is empty
(no entry keyed by the entry position 0), and a second evaluation at
the same position runs the node-specific matcher again (two matcher
events), because Match.parse overrides the memoizing
ParsingExpression.parse without any cache handling. -/
theorem c3_counterexample :
    (outState (run (.parse (.strMatch 1 "" false "a" false))
        (initState "a" none true false) 10)).map PState.cache = some [] ∧
    ((outState (run (.parse (.strMatch 1 "" false "a" false))
        (initState "a" none true false) 10)).map (fun s1 =>
      (outState (run (.parse (.strMatch 1 "" false "a" false))
          { s1 with position := 0 } 10)).map (fun s2 =>
        matcherEvents s2.events)))
      = some (some [.matcher 1 0, .matcher 1 0]) := by
  exact ⟨rfl, rfl⟩

/-- C3, amended: packrat memoization holds for composite expression
nodes (those inheriting ParsingExpression.parse) but not for primitive
Match nodes: for a composite node E evaluated first (no memo entry) at
entry position p, the memo afterwards contains an entry keyed by p
holding the outcome, and a second evaluation at p returns the cached
success (setting the position to the cached new position) or re-raises
the cached failure, without re-running E's node-specific matcher and
without touching the memo. -/
theorem c3_amended (n m : Nat) (e : Expr) (s : PState)
    (he : e.isMatchLeaf = false)
    (hmiss : lookupCache s.cache e.nid (parseIntro s).position = none) :
    (∀ r s', run (.parse e) s n = .ok r s' →
      (parseIntro { s' with position := (parseIntro s).position }).position
          = (parseIntro s).position →
      lookupCache s'.cache e.nid (parseIntro s).position
          = some (.ok r, s'.position) ∧
      ∃ s'', run (.parse e) { s' with position := (parseIntro s).position } (m + 1)
          = .ok r s'' ∧
        s''.position = s'.position ∧ s''.cache = s'.cache ∧
        matcherEvents s''.events = matcherEvents s'.events) ∧
    (∀ v s', run (.parse e) s n = .err (.noMatch v) s' →
      (parseIntro { s' with position := (parseIntro s).position }).position
          = (parseIntro s).position →
      s'.nm = some v →
      lookupCache s'.cache e.nid (parseIntro s).position
          = some (.err v, (parseIntro s).position) ∧
      ∃ s'', run (.parse e) { s' with position := (parseIntro s).position } (m + 1)
          = .err (.noMatch v) s'' ∧
        s''.position = (parseIntro s).position ∧ s''.cache = s'.cache ∧
        matcherEvents s''.events = matcherEvents s'.events) := by
  obtain ⟨pp, ev, hintro⟩ := parseIntro_frame s
  have hmiss1 : lookupCache (parseIntro s).cache e.nid (parseIntro s).position
      = none := by
    rw [hintro]
    rw [hintro] at hmiss
    exact hmiss
  constructor
  · intro r s' hrun hintro2
    match n with
    | 0 => exact absurd hrun (by simp [run])
    | n + 1 =>
      simp only [run, he, Bool.false_eq_true, if_false, hmiss1] at hrun
      cases hp : run (.pinner e)
          { descendNm (parseIntro s) with lastPexpr := some e } n with
      | fuelOut => rw [hp] at hrun; exact absurd hrun (by simp)
      | err pe s4 =>
          rw [hp] at hrun
          cases pe with
          | typeErrNone => exact absurd hrun (by simp)
          | noMatch nmv => exact absurd hrun (by simp)
      | ok r0 s4 =>
          rw [hp] at hrun
          injection hrun with h1 h2
          subst h1
          have hstore : lookupCache s'.cache e.nid (parseIntro s).position
              = some (.ok (rootWrap e (parseIntro s).position s4.reduceTree r0),
                  s'.position) := by
            rw [← h2]
            simp [lookupCache]
          refine ⟨hstore, ?_⟩
          have hcacheX : (parseIntro
              { s' with position := (parseIntro s).position }).cache
              = s'.cache := by
            obtain ⟨pp2, ev2, hintro3⟩ :=
              parseIntro_frame { s' with position := (parseIntro s).position }
            rw [hintro3]
          have hlook2 : lookupCache
              (parseIntro { s' with position := (parseIntro s).position }).cache
              e.nid
              (parseIntro { s' with position := (parseIntro s).position }).position
              = some (.ok (rootWrap e (parseIntro s).position s4.reduceTree r0),
                  s'.position) := by
            rw [hcacheX, hintro2]
            exact hstore
          refine ⟨{ parseIntro { s' with position := (parseIntro s).position }
              with position := s'.position },
            parse_cache_hit_ok m e _ _ _ he hlook2, rfl, hcacheX, ?_⟩
          exact matcherEvents_parseIntro
            { s' with position := (parseIntro s).position }
  · intro v s' hrun hintro2 hnm
    match n with
    | 0 => exact absurd hrun (by simp [run])
    | n + 1 =>
      simp only [run, he, Bool.false_eq_true, if_false, hmiss1] at hrun
      cases hp : run (.pinner e)
          { descendNm (parseIntro s) with lastPexpr := some e } n with
      | fuelOut => rw [hp] at hrun; exact absurd hrun (by simp)
      | ok r0 s4 => rw [hp] at hrun; exact absurd hrun (by simp)
      | err pe s4 =>
          rw [hp] at hrun
          cases pe with
          | typeErrNone => exact absurd hrun (by simp)
          | noMatch nmv =>
              injection hrun with h1 h2
              have hv : nmv = v := by injection h1
              subst hv
              have hstore : lookupCache s'.cache e.nid (parseIntro s).position
                  = some (.err nmv, (parseIntro s).position) := by
                rw [← h2]
                simp [lookupCache]
              refine ⟨hstore, ?_⟩
              have hcacheX : (parseIntro
                  { s' with position := (parseIntro s).position }).cache
                  = s'.cache := by
                obtain ⟨pp2, ev2, hintro3⟩ :=
                  parseIntro_frame { s' with position := (parseIntro s).position }
                rw [hintro3]
              have hnmX : (parseIntro
                  { s' with position := (parseIntro s).position }).nm
                  = some nmv := by
                obtain ⟨pp2, ev2, hintro3⟩ :=
                  parseIntro_frame { s' with position := (parseIntro s).position }
                rw [hintro3]
                exact hnm
              have hlook2 : lookupCache
                  (parseIntro { s' with position := (parseIntro s).position }).cache
                  e.nid
                  (parseIntro { s' with position := (parseIntro s).position }).position
                  = some (.err nmv, (parseIntro s).position) := by
                rw [hcacheX, hintro2]
                exact hstore
              refine ⟨{ parseIntro { s' with position := (parseIntro s).position }
                  with position := (parseIntro s).position },
                parse_cache_hit_err m e _ _ _ he hlook2 hnmX, rfl, hcacheX, ?_⟩
              exact matcherEvents_parseIntro
                { s' with position := (parseIntro s).position }

/-- C3, witness for the amended theorem: the composite Sequence over
the literal "a" is evaluated once on input "a" (success) and once on
input "b" (failure); in both cases the amended theorem yields a memo
entry at the entry position and a cached second evaluation. -/
theorem c3_amended_witness :
    (∃ s'', run (.parse (.sequence 0 "" false [.strMatch 1 "" false "a" false]))
        { input := ['a'], position := 0, nm := none, inLexRule := false,
          inParseComment := false, lastPexpr := none, skipws := true,
          ws := defaultWs, reduceTree := false, commentsModel := none,
          cache := [((0, 0), (.ok (.list [.term "" 0 "a" true none]), 1))],
          events := [.matcher 1 0, .wsSkip 0, .matcher 0 0, .wsSkip 0] } 11
        = .ok (.list [.term "" 0 "a" true none]) s'' ∧
      s''.position = 1 ∧
      matcherEvents s''.events = [.matcher 1 0, .matcher 0 0]) ∧
    (∃ s'', run (.parse (.sequence 0 "" false [.strMatch 1 "" false "a" false]))
        { input := ['b'], position := 0, nm := some ⟨"a", 0, true⟩,
          inLexRule := false, inParseComment := false, lastPexpr := none,
          skipws := true, ws := defaultWs, reduceTree := false,
          commentsModel := none,
          cache := [((0, 0), (.err ⟨"a", 0, true⟩, 0))],
          events := [.matcher 1 0, .wsSkip 0, .matcher 0 0, .wsSkip 0] } 11
        = .err (.noMatch ⟨"a", 0, true⟩) s'' ∧
      s''.position = 0 ∧
      matcherEvents s''.events = [.matcher 1 0, .matcher 0 0]) := by
  constructor
  · have h := (c3_amended 10 10 (.sequence 0 "" false
        [.strMatch 1 "" false "a" false]) (initState "a" none true false)
        rfl rfl).1
        (.list [.term "" 0 "a" true none])
        { input := ['a'], position := 1, nm := none, inLexRule := false,
          inParseComment := false, lastPexpr := none, skipws := true,
          ws := defaultWs, reduceTree := false, commentsModel := none,
          cache := [((0, 0), (.ok (.list [.term "" 0 "a" true none]), 1))],
          events := [.matcher 1 0, .wsSkip 0, .matcher 0 0, .wsSkip 0] }
        rfl rfl
    obtain ⟨hlook, s'', hrun2, hpos, hcache, hev⟩ := h
    exact ⟨s'', hrun2, by rw [hpos], by rw [hev]; rfl⟩
  · have h := (c3_amended 10 10 (.sequence 0 "" false
        [.strMatch 1 "" false "a" false]) (initState "b" none true false)
        rfl rfl).2
        ⟨"a", 0, true⟩
        { input := ['b'], position := 0, nm := some ⟨"a", 0, true⟩,
          inLexRule := false, inParseComment := false, lastPexpr := none,
          skipws := true, ws := defaultWs, reduceTree := false,
          commentsModel := none,
          cache := [((0, 0), (.err ⟨"a", 0, true⟩, 0))],
          events := [.matcher 1 0, .wsSkip 0, .matcher 0 0, .wsSkip 0] }
        rfl rfl rfl
    obtain ⟨hlook, s'', hrun2, hpos, hcache, hev⟩ := h
    exact ⟨s'', hrun2, by rw [hpos]; rfl, by rw [hev]; rfl⟩

/-- C4, counterexample: a primitive-match failure whose position (5) is
strictly greater than the recorded best (0) does not replace the record
when the comment-parsing guard is set, so the claimed "if and only if"
fails: _nm_raise leaves nm at the old record. -/
theorem c4_counterexample :
    (nmRaise ⟨"y", 5, true⟩
      { input := [], position := 0, nm := some ⟨"x", 0, true⟩, inLexRule := false,
        inParseComment := true, lastPexpr := none, skipws := true, ws := defaultWs,
        reduceTree := false, commentsModel := none, cache := [], events := [] }).2.nm
      = some ⟨"x", 0, true⟩ ∧ (0 : Nat) < 5 := by
  exact ⟨rfl, by decide⟩

/-- C4, amended: _nm_raise replaces the best-failure record nm if and
only if comment parsing is not in progress and either no record exists
or the new failure's position is strictly greater than the recorded
one; when replaced, the new record is the raised failure; and the
recorded position never decreases. -/
theorem c4_amended (cand : NM) (s : PState) :
    ((nmRaise cand s).2.nm ≠ s.nm ↔
      (s.inParseComment = false ∧
        (s.nm = none ∨ ∃ cur, s.nm = some cur ∧ cur.position < cand.position))) ∧
    ((nmRaise cand s).2.nm ≠ s.nm → (nmRaise cand s).2.nm = some cand) ∧
    (∀ cur, s.nm = some cur →
      ∃ cur', (nmRaise cand s).2.nm = some cur' ∧ cur.position ≤ cur'.position) := by
  obtain ⟨i, p, nmv, lx, pc, lp, sw, w, rt, cm, ca, ev⟩ := s
  rcases pc with _ | _ <;> rcases nmv with _ | cur
  · -- no comment guard, no record: always replaced
    refine ⟨by simp [nmRaise], fun _ => by simp [nmRaise], ?_⟩
    intro cur0 hcur0
    exact absurd hcur0 (by simp)
  · -- no comment guard, record present: replaced iff strictly greater
    by_cases hp : cur.position < cand.position
    · have hval : (nmRaise cand
          { input := i, position := p, nm := some cur, inLexRule := lx,
            inParseComment := false, lastPexpr := lp, skipws := sw, ws := w,
            reduceTree := rt, commentsModel := cm, cache := ca,
            events := ev }).2.nm = some cand := by
        simp [nmRaise, hp]
      rw [hval]
      refine ⟨?_, fun _ => rfl, ?_⟩
      · constructor
        · intro _
          exact ⟨rfl, Or.inr ⟨cur, rfl, hp⟩⟩
        · intro _ hne
          rw [Option.some.injEq] at hne
          subst hne
          exact absurd hp (lt_irrefl _)
      · intro cur0 hcur0
        rw [Option.some.injEq] at hcur0
        subst hcur0
        exact ⟨cand, rfl, le_of_lt hp⟩
    · have hval : (nmRaise cand
          { input := i, position := p, nm := some cur, inLexRule := lx,
            inParseComment := false, lastPexpr := lp, skipws := sw, ws := w,
            reduceTree := rt, commentsModel := cm, cache := ca,
            events := ev }).2.nm = some cur := by
        simp [nmRaise, hp]
      rw [hval]
      refine ⟨?_, fun hne => absurd rfl hne, ?_⟩
      · simp only [ne_eq, not_true_eq_false, false_iff, not_and, not_or]
        intro _
        refine ⟨by simp, ?_⟩
        rintro ⟨cur0, hcur0, hlt⟩
        rw [Option.some.injEq] at hcur0
        subst hcur0
        exact hp hlt
      · intro cur0 hcur0
        rw [Option.some.injEq] at hcur0
        subst hcur0
        exact ⟨_, rfl, le_refl _⟩
  · -- comment guard, no record: untouched
    refine ⟨by simp [nmRaise], fun hne => absurd rfl hne, ?_⟩
    intro cur0 hcur0
    exact absurd hcur0 (by simp)
  · -- comment guard, record present: untouched
    have hval : (nmRaise cand
        { input := i, position := p, nm := some cur, inLexRule := lx,
          inParseComment := true, lastPexpr := lp, skipws := sw, ws := w,
          reduceTree := rt, commentsModel := cm, cache := ca,
          events := ev }).2.nm = some cur := by
      simp [nmRaise]
    rw [hval]
    refine ⟨by simp, fun hne => absurd rfl hne, ?_⟩
    intro cur0 hcur0
    rw [Option.some.injEq] at hcur0
    subst hcur0
    exact ⟨_, rfl, le_refl _⟩

/-- C4, witness for the amended theorem: with a recorded failure at
position 3 and a new failure at position 5 (no comment guard), the
record is at position at least 3 afterwards. -/
theorem c4_amended_witness :
    ∃ cur', (nmRaise ⟨"y", 5, true⟩
      { input := [], position := 0, nm := some ⟨"x", 3, true⟩, inLexRule := false,
        inParseComment := false, lastPexpr := none, skipws := true, ws := defaultWs,
        reduceTree := false, commentsModel := none, cache := [], events := [] }).2.nm
        = some cur' ∧ 3 ≤ cur'.position :=
  (c4_amended ⟨"y", 5, true⟩ _).2.2 ⟨"x", 3, true⟩ rfl

/-- C5: for the grammar S with the sequence of literals a then b, on
input "ac" the rule consumed input (the literal a), yet the surfaced
failure reports the rule name S at position 1, not the literal b as the
claim and the spec scenario state: _nm_change_rule compares the
failure's position with the parser's current position (the failing
child's entry position) instead of the rule's entry position, so the
rewrite fires although the rule consumed input. -/
theorem c5_rule_rewrite_bug :
    outErr (runParser (.sequence 0 "S" true
        [.strMatch 1 "" false "a" false, .strMatch 2 "" false "b" false])
      none "ac" true false 30) = some (.noMatch ⟨"S", 1, true⟩) ∧
    some (PErr.noMatch ⟨"S", 1, true⟩) ≠ some (PErr.noMatch ⟨"b", 1, true⟩) := by
  exact ⟨rfl, by decide⟩

/-- C6, counterexample: with the ignore-case flag set, StrMatch on
literal "ab" against input "AB" succeeds and returns a Terminal whose
value is the literal "ab", not the matched input text "AB". -/
theorem c6_counterexample :
    outRes (strMatchP "" false "ab" true (initState "AB" none true false))
      = some (.term "" 0 "ab" false none) ∧
    String.mk ((initState "AB" none true false).input.take 2) = "AB" ∧
    ("ab" : String) ≠ "AB" := by
  refine ⟨by rfl, by rfl, by decide⟩

/-- C6, amended: StrMatch._parse succeeds iff the next len(literal)
code units of the input equal the literal (case-insensitively when the
ignore-case flag is set); on success it advances the position by
len(literal) and returns a Terminal whose value is the literal itself
(equal to the matched text only up to case), suppressed iff the
enclosing expression is exactly a Sequence; on failure the position is
left at the entry position. -/
theorem c6_amended (rule : String) (root : Bool) (lit : String) (ic : Bool)
    (s : PState) :
    ((∃ r s', strMatchP rule root lit ic s = .ok r s') ↔
      (if ic then pyLower (String.mk ((s.input.drop s.position).take lit.length))
                = pyLower lit
       else String.mk ((s.input.drop s.position).take lit.length) = lit)) ∧
    (∀ r s', strMatchP rule root lit ic s = .ok r s' →
      s'.position = s.position + lit.length ∧
      r = .term (if root then rule else "") s.position lit (isSeqNode s.lastPexpr)
            none) ∧
    (∀ pe s', strMatchP rule root lit ic s = .err pe s' →
      s'.position = s.position) := by
  by_cases hm : (if ic then pyLower (String.mk ((s.input.drop s.position).take lit.length)) == pyLower lit
                 else (String.mk ((s.input.drop s.position).take lit.length)) == lit) = true
  · have hrun : strMatchP rule root lit ic s =
        .ok (.term (if root then rule else "") s.position lit (isSeqNode s.lastPexpr)
              none)
          { s with position := s.position + lit.length } := by
      unfold strMatchP
      simp only [hm, if_true]
    rw [hrun]
    refine ⟨?_, ?_, ?_⟩
    · constructor
      · intro _
        rcases ic with _ | _ <;> simpa using hm
      · intro _
        exact ⟨_, _, rfl⟩
    · intro r s' h
      injection h with h1 h2
      subst h1
      subst h2
      exact ⟨rfl, rfl⟩
    · intro pe s' h
      exact absurd h (by simp)
  · obtain ⟨v, hv⟩ := nmRaise_snd ⟨lit, s.position, true⟩ s
    have hrun : strMatchP rule root lit ic s =
        .err (nmRaise ⟨lit, s.position, true⟩ s).1
          (nmRaise ⟨lit, s.position, true⟩ s).2 := by
      unfold strMatchP
      simp [hm]
    rw [hrun]
    refine ⟨?_, ?_, ?_⟩
    · constructor
      · rintro ⟨r, s', h⟩
        exact absurd h (by simp)
      · intro h
        rcases ic with _ | _ <;> simp_all
    · intro r s' h
      exact absurd h (by simp)
    · intro pe s' h
      injection h with h1 h2
      subst h2
      rw [hv]

/-- C6, witness for the amended theorem at a concrete input: literal
"ab" against input "ab" inside a Sequence context succeeds, advances
to position 2 and produces a suppressed Terminal carrying "ab"; and
against input "ax" it fails leaving the position at 0. -/
theorem c6_amended_witness :
    (∃ r s', strMatchP "" false "ab" false
        { initState "ab" none true false with
          lastPexpr := some (.sequence 7 "" false []) } = .ok r s') ∧
    (∀ pe s', strMatchP "" false "ab" false (initState "ax" none true false)
        = .err pe s' → s'.position = 0) := by
  constructor
  · exact ((c6_amended "" false "ab" false
      { initState "ab" none true false with
        lastPexpr := some (.sequence 7 "" false []) }).1).mpr (by decide)
  · intro pe s' hrun
    exact (c6_amended "" false "ab" false (initState "ax" none true false)).2.2 pe s' hrun

/-- C9: when an OrderedChoice has exhausted its alternatives (in
particular immediately, for an empty alternatives list), the object
raised is the parser-wide best-so-far record nm, not a failure built
for the choice; and when no failure has been recorded yet in the run
the raise statement raises None, which is a TypeError, as a concrete
whole-parse run of an empty choice shows. -/
theorem c9_empty_choice_raises_nm :
    (∀ (self : Expr) (cpos : Nat) (s : PState) (n : Nat),
      (s.nm = none → run (.choiceKids self [] cpos) s (n + 1) = .err .typeErrNone s) ∧
      (∀ v, s.nm = some v →
        run (.choiceKids self [] cpos) s (n + 1) = .err (.noMatch v) s)) ∧
    outErr (runParser (.orderedChoice 0 "S" true []) none "x" true false 10)
      = some .typeErrNone := by
  constructor
  · intro self cpos s n
    constructor
    · intro h
      simp only [run, h]
    · intro v h
      simp only [run, h]
  · rfl

/-- C9, witness: the general part applied at a concrete state with no
recorded failure and at one with a recorded failure. -/
theorem c9_witness :
    run (.choiceKids (.orderedChoice 0 "S" true []) [] 5)
        (initState "x" none true false) 4
      = .err .typeErrNone (initState "x" none true false) ∧
    run (.choiceKids (.orderedChoice 0 "S" true []) [] 5)
        { initState "x" none true false with nm := some ⟨"q", 2, true⟩ } 4
      = .err (.noMatch ⟨"q", 2, true⟩)
          { initState "x" none true false with nm := some ⟨"q", 2, true⟩ } := by
  constructor
  · exact (c9_empty_choice_raises_nm.1 _ _ _ 3).1 rfl
  · exact (c9_empty_choice_raises_nm.1 _ _ _ 3).2 ⟨"q", 2, true⟩ rfl

theorem fpLoop_some (node : PRes) (v : SVal) (l : List SVal) :
    fpLoop node l (some v)
      = if l.countP (fun c => !isStrV c) = 0 then v else .str (pyStr node) := by
  induction l with
  | nil => simp [fpLoop]
  | cons c rest ih =>
      by_cases hc : isStrV c = true
      · simp [fpLoop, hc, List.countP_cons, ih]
      · simp only [Bool.not_eq_true] at hc
        simp [fpLoop, hc, List.countP_cons]

theorem fpLoop_none (node : PRes) (l : List SVal) :
    (l.countP (fun c => !isStrV c) = 0 → fpLoop node l none = .non) ∧
    (∀ c, c ∈ l → isStrV c = false → l.countP (fun c => !isStrV c) = 1 →
      fpLoop node l none = c) ∧
    (2 ≤ l.countP (fun c => !isStrV c) →
      fpLoop node l none = .str (pyStr node)) := by
  induction l with
  | nil =>
      refine ⟨fun _ => rfl, ?_, ?_⟩
      · intro c hc
        exact absurd hc (by simp)
      · intro h
        simp at h
  | cons x rest ih =>
      by_cases hx : isStrV x = true
      · refine ⟨?_, ?_, ?_⟩
        · intro h
          simp only [List.countP_cons, hx] at h
          simp only [fpLoop, hx, if_true]
          exact ih.1 (by simpa using h)
        · intro c hc hcstr hcount
          simp only [fpLoop, hx, if_true]
          have hcrest : c ∈ rest := by
            rcases List.mem_cons.mp hc with h1 | h1
            · subst h1
              rw [hx] at hcstr
              exact absurd hcstr (by simp)
            · exact h1
          refine (ih.2.1) c hcrest hcstr ?_
          simp only [List.countP_cons, hx] at hcount
          simpa using hcount
        · intro h2
          simp only [fpLoop, hx, if_true]
          refine ih.2.2 ?_
          simp only [List.countP_cons, hx] at h2
          simpa using h2
      · simp only [Bool.not_eq_true] at hx
        refine ⟨?_, ?_, ?_⟩
        · intro h
          simp [List.countP_cons, hx] at h
        · intro c hc hcstr hcount
          simp only [List.countP_cons, hx] at hcount
          have hrest0 : rest.countP (fun c => !isStrV c) = 0 := by
            simpa using hcount
          have hcx : c = x := by
            rcases List.mem_cons.mp hc with h1 | h1
            · exact h1
            · exfalso
              have : 0 < rest.countP (fun c => !isStrV c) :=
                List.countP_pos_iff.mpr ⟨c, h1, by simp [hcstr]⟩
              simp [hrest0] at this
          subst hcx
          simp only [fpLoop, hx, Bool.false_eq_true, if_false]
          rw [fpLoop_some]
          simp [hrest0]
        · intro h2
          simp only [fpLoop, hx, Bool.false_eq_true, if_false]
          rw [fpLoop_some]
          simp only [List.countP_cons, hx, Bool.not_false, eq_self_iff_true,
            if_true] at h2
          have : rest.countP (fun c => !isStrV c) ≠ 0 := by omega
          simp [this]

/-- C8, counterexample: a NonTerminal whose child results are two
strings is reduced by the default semantic action to None (the
suppressed sentinel), not to the node's concatenated string form
"a | b" as the claim states: the for-else clause returns the (absent)
remembered non-string child. -/
theorem c8_counterexample :
    firstPass (.nt "x" 0 [.term "" 0 "a" false none, .term "" 0 "b" false none])
      [.str "a", .str "b"] = .non ∧
    pyStr (.nt "x" 0 [.term "" 0 "a" false none, .term "" 0 "b" false none])
      = "a | b" ∧
    SVal.non ≠ .str "a | b" := by
  refine ⟨rfl, ?_, ?_⟩
  · simp [pyStr, pyStr.pyStrL]
    rfl
  · intro h
    exact SVal.noConfusion h

/-- C8, amended: the default first_pass maps a Terminal to its string
value (None when suppressed); a NonTerminal with exactly one child
result to that result; with no non-string child (and not exactly one
child) to None, the suppressed sentinel; with exactly one non-string
child among others to that child; and with two or more non-string
children to the node's concatenated string form. -/
theorem c8_amended (rule : String) (pos : Nat) (kids : List PRes)
    (nodes : List SVal) :
    (∀ r p v sup cm, firstPass (.term r p v sup cm) nodes
        = if sup then SVal.non else .str v) ∧
    (∀ x, nodes = [x] → firstPass (.nt rule pos kids) nodes = x) ∧
    (nodes.length ≠ 1 →
      ((nodes.countP (fun c => !isStrV c) = 0 →
          firstPass (.nt rule pos kids) nodes = .non) ∧
       (∀ c, c ∈ nodes → isStrV c = false →
          nodes.countP (fun c => !isStrV c) = 1 →
          firstPass (.nt rule pos kids) nodes = c) ∧
       (2 ≤ nodes.countP (fun c => !isStrV c) →
          firstPass (.nt rule pos kids) nodes
            = .str (pyStr (.nt rule pos kids))))) := by
  refine ⟨fun r p v sup cm => rfl, ?_, ?_⟩
  · intro x hx
    subst hx
    rfl
  · intro hlen
    have hfp : firstPass (.nt rule pos kids) nodes
        = fpLoop (.nt rule pos kids) nodes none := by
      match nodes, hlen with
      | [], _ => rfl
      | [x], h => exact absurd rfl h
      | x :: y :: rest, _ => rfl
    rw [hfp]
    exact fpLoop_none (.nt rule pos kids) nodes

/-- C8, witness for the amended theorem at concrete inputs: a
suppressed Terminal gives None, a single child is passed through, two
strings give None, one tree among strings is returned, and two trees
give the string form of the node. -/
theorem c8_amended_witness :
    firstPass (.term "t" 0 "v" true none) [] = .non ∧
    firstPass (.nt "x" 0 []) [.str "q"] = .str "q" ∧
    firstPass (.nt "x" 0 []) [.str "a", .str "b"] = .non ∧
    firstPass (.nt "x" 0 []) [.str "a", .tree (.term "" 0 "z" false none)]
      = .tree (.term "" 0 "z" false none) ∧
    firstPass (.nt "x" 0 [])
      [.tree (.term "" 0 "y" false none), .tree (.term "" 0 "z" false none)]
      = .str (pyStr (.nt "x" 0 [])) := by
  refine ⟨?_, ?_, ?_, ?_, ?_⟩
  · exact (c8_amended "x" 0 [] []).1 "t" 0 "v" true none
  · exact (c8_amended "x" 0 [] [.str "q"]).2.1 (.str "q") rfl
  · exact ((c8_amended "x" 0 [] [.str "a", .str "b"]).2.2 (by simp)).1 rfl
  · exact ((c8_amended "x" 0 [] [.str "a", .tree (.term "" 0 "z" false none)]).2.2
      (by simp)).2.1 (.tree (.term "" 0 "z" false none)) (by simp) rfl rfl
  · exact ((c8_amended "x" 0 []
      [.tree (.term "" 0 "y" false none), .tree (.term "" 0 "z" false none)]).2.2
      (by simp)).2.2 (by rfl)

/-- C10: getASG guards on the truthiness of the stored parse tree, not
on whether parse() was called: it raises for any falsy tree, including
an empty NonTerminal and the empty list that a whole-parse run of a
root ZeroOrMore legitimately returns on non-matching input; with no
sem_actions argument and no registered actions it raises; and with a
non-dict argument it raises. -/
theorem c10_getASG_guards :
    (∀ (reg : List (String × SAct)) (arg : Option SemArg) (f : Nat),
      getASG (some (.nt "S" 0 [])) reg arg f = .error .emptyTree) ∧
    outRes (runParser (.zeroOrMore 0 "S" true (.strMatch 1 "" false "a" false))
      none "b" true false 30) = some (.list []) ∧
    (∀ (reg : List (String × SAct)) (arg : Option SemArg) (f : Nat),
      getASG (some (.list [])) reg arg f = .error .emptyTree) ∧
    (∀ (t : PRes) (f : Nat), truthy t = true →
      getASG (some t) [] none f = .error .noActions) ∧
    (∀ (t : PRes) (reg : List (String × SAct)) (f : Nat), truthy t = true →
      getASG (some t) reg (some .nonDict) f = .error .notDict) := by
  refine ⟨?_, rfl, ?_, ?_, ?_⟩
  · intro reg arg f
    rfl
  · intro reg arg f
    rfl
  · intro t f ht
    simp [getASG, ht]
  · intro t reg f ht
    simp [getASG, ht]

/-- C10, witness: the guard parts that carry hypotheses, applied to a
concrete truthy Terminal tree. -/
theorem c10_witness :
    getASG (some (.term "S" 0 "a" false none)) [] none 5
      = .error .noActions ∧
    getASG (some (.term "S" 0 "a" false none)) [] (some .nonDict) 5
      = .error .notDict := by
  constructor
  · exact c10_getASG_guards.2.2.2.1 (.term "S" 0 "a" false none) 5 rfl
  · exact c10_getASG_guards.2.2.2.2 (.term "S" 0 "a" false none) [] 5 rfl

/-- The Empty predicate node used in the repetition counterexamples. -/
def emptyE : Expr := .empty 1 "" false

/-- ZeroOrMore over Empty. -/
def zomEmptyE : Expr := .zeroOrMore 0 "" false emptyE

/-- OneOrMore over Empty. -/
def oomEmptyE : Expr := .oneOrMore 2 "" false emptyE

/-- The loop-invariant state of the repetition loops over Empty on
empty input: after the first iteration the Empty node's success is
memoized at position 0 and every further iteration is a cache hit that
leaves the state unchanged except for the whitespace-skip event of the
iteration's parse entry. -/
def c2Base (lp : Option Expr) (ev : List Ev) : PState :=
  { input := [], position := 0, nm := none, inLexRule := false,
    inParseComment := false, lastPexpr := lp, skipws := true, ws := defaultWs,
    reduceTree := false, commentsModel := none,
    cache := [((1, 0), (.ok .non, 0))], events := ev }

theorem zom_empty_loop (lp : Option Expr) :
    ∀ (n : Nat) (acc : List PRes) (ev : List Ev),
      run (.zomKids emptyE acc) (c2Base lp ev) n = .fuelOut := by
  intro n
  induction n with
  | zero => intro acc ev; rfl
  | succ n ih =>
      intro acc ev
      cases n with
      | zero => rfl
      | succ m =>
          have hstep : run (.zomKids emptyE acc) (c2Base lp ev) (m + 1 + 1)
              = run (.zomKids emptyE (acc ++ [PRes.non]))
                  (c2Base lp (.wsSkip 0 :: ev)) (m + 1) := rfl
          rw [hstep]
          exact ih (acc ++ [PRes.non]) (.wsSkip 0 :: ev)

theorem oom_empty_loop (lp : Option Expr) :
    ∀ (n : Nat) (acc : List PRes) (ev : List Ev),
      run (.oomKids emptyE acc true) (c2Base lp ev) n = .fuelOut := by
  intro n
  induction n with
  | zero => intro acc ev; rfl
  | succ n ih =>
      intro acc ev
      cases n with
      | zero => rfl
      | succ m =>
          have hstep : run (.oomKids emptyE acc true) (c2Base lp ev) (m + 1 + 1)
              = run (.oomKids emptyE (acc ++ [PRes.non]) true)
                  (c2Base lp (.wsSkip 0 :: ev)) (m + 1) := rfl
          rw [hstep]
          exact ih (acc ++ [PRes.non]) (.wsSkip 0 :: ev)

theorem parse_comp_fuelout (e : Expr) (s : PState) (n : Nat)
    (he : e.isMatchLeaf = false)
    (hmiss : lookupCache (parseIntro s).cache e.nid (parseIntro s).position = none)
    (h : run (.pinner e) { descendNm (parseIntro s) with lastPexpr := some e } n
        = .fuelOut) :
    run (.parse e) s (n + 1) = .fuelOut := by
  simp only [run, he, Bool.false_eq_true, if_false, hmiss]
  rw [h]

theorem parse_comp_inner_ok (e : Expr) (s : PState) (n : Nat) (r : PRes)
    (s4 : PState)
    (he : e.isMatchLeaf = false)
    (hmiss : lookupCache (parseIntro s).cache e.nid (parseIntro s).position = none)
    (h : run (.pinner e) { descendNm (parseIntro s) with lastPexpr := some e } n
        = .ok r s4) :
    run (.parse e) s (n + 1)
      = .ok (rootWrap e (parseIntro s).position s4.reduceTree r)
        { s4 with lastPexpr := (descendNm (parseIntro s)).lastPexpr,
                  cache := ((e.nid, (parseIntro s).position),
                    (.ok (rootWrap e (parseIntro s).position s4.reduceTree r),
                     s4.position)) :: s4.cache } := by
  simp only [run, he, Bool.false_eq_true, if_false, hmiss]
  rw [h]

theorem pinner_zom_fuelout (i : Nat) (ru : String) (rt : Bool) (child : Expr)
    (s : PState) (n : Nat)
    (h : run (.zomKids child [])
        { s with events := .matcher i s.position :: s.events } n = .fuelOut) :
    run (.pinner (.zeroOrMore i ru rt child)) s (n + 1) = .fuelOut := by
  simp only [run]
  exact h

theorem pinner_oom_fuelout (i : Nat) (ru : String) (rt : Bool) (child : Expr)
    (s : PState) (n : Nat)
    (h : run (.oomKids child [] false)
        { s with events := .matcher i s.position :: s.events } n = .fuelOut) :
    run (.pinner (.oneOrMore i ru rt child)) s (n + 1) = .fuelOut := by
  simp only [run]
  exact h

theorem zomKids_inner_fuelout (child : Expr) (acc : List PRes) (s : PState)
    (n : Nat) (h : run (.parse child) s n = .fuelOut) :
    run (.zomKids child acc) s (n + 1) = .fuelOut := by
  simp only [run]
  rw [h]

theorem zomKids_inner_ok (child : Expr) (acc : List PRes) (s : PState) (n : Nat)
    (r : PRes) (s' : PState)
    (h : run (.parse child) s n = .ok r s')
    (h2 : run (.zomKids child (acc ++ [r])) s' n = .fuelOut) :
    run (.zomKids child acc) s (n + 1) = .fuelOut := by
  simp only [run]
  rw [h]
  exact h2

theorem oomKids_inner_fuelout (child : Expr) (acc : List PRes) (first : Bool)
    (s : PState) (n : Nat) (h : run (.parse child) s n = .fuelOut) :
    run (.oomKids child acc first) s (n + 1) = .fuelOut := by
  simp only [run]
  rw [h]

theorem oomKids_inner_ok (child : Expr) (acc : List PRes) (first : Bool)
    (s : PState) (n : Nat) (r : PRes) (s' : PState)
    (h : run (.parse child) s n = .ok r s')
    (h2 : run (.oomKids child (acc ++ [r]) true) s' n = .fuelOut) :
    run (.oomKids child acc first) s (n + 1) = .fuelOut := by
  simp only [run]
  rw [h]
  exact h2

theorem pinner_empty_ok (i : Nat) (ru : String) (rt : Bool) (s : PState)
    (n : Nat) :
    run (.pinner (.empty i ru rt)) s (n + 1)
      = .ok .non { s with events := .matcher i s.position :: s.events } := rfl

/-- C2: the repetition loops have no detection of a child that
succeeds without advancing: ZeroOrMore(Empty) and OneOrMore(Empty) on
empty input never terminate (for every amount of fuel the evaluation
is still running), contradicting the claimed termination.  The loop
body only stops on a child failure, and the memoized zero-length
success of Empty repeats forever. -/
theorem c2_repetition_diverges :
    (∀ fuel, run (.parse zomEmptyE) (initState "" none true false) fuel
        = .fuelOut) ∧
    (∀ fuel, run (.parse oomEmptyE) (initState "" none true false) fuel
        = .fuelOut) := by
  constructor
  · intro fuel
    match fuel with
    | 0 => rfl
    | a + 1 =>
      refine parse_comp_fuelout _ _ a rfl rfl ?_
      match a with
      | 0 => rfl
      | b + 1 =>
        refine pinner_zom_fuelout _ _ _ _ _ b ?_
        match b with
        | 0 => rfl
        | c + 1 =>
          match c with
          | 0 => exact zomKids_inner_fuelout _ _ _ 0 rfl
          | d + 1 =>
            match d with
            | 0 =>
                refine zomKids_inner_fuelout _ _ _ 1 ?_
                exact parse_comp_fuelout _ _ 0 rfl rfl rfl
            | e + 1 =>
                refine zomKids_inner_ok _ _ _ (e + 2) PRes.non
                    (c2Base (some zomEmptyE)
                      [.matcher 1 0, .wsSkip 0, .matcher 0 0, .wsSkip 0]) ?_ ?_
                · exact parse_comp_inner_ok emptyE
                    { input := [], position := 0, nm := none, inLexRule := false,
                      inParseComment := false, lastPexpr := some zomEmptyE,
                      skipws := true, ws := defaultWs, reduceTree := false,
                      commentsModel := none, cache := [],
                      events := [.matcher 0 0, .wsSkip 0] }
                    (e + 1) PRes.non
                    { input := [], position := 0, nm := none, inLexRule := false,
                      inParseComment := false, lastPexpr := some emptyE,
                      skipws := true, ws := defaultWs, reduceTree := false,
                      commentsModel := none, cache := [],
                      events := [.matcher 1 0, .wsSkip 0, .matcher 0 0,
                        .wsSkip 0] }
                    rfl rfl (pinner_empty_ok 1 "" false _ e)
                · exact zom_empty_loop (some zomEmptyE) (e + 2) ([] ++ [PRes.non])
                    [.matcher 1 0, .wsSkip 0, .matcher 0 0, .wsSkip 0]
  · intro fuel
    match fuel with
    | 0 => rfl
    | a + 1 =>
      refine parse_comp_fuelout _ _ a rfl rfl ?_
      match a with
      | 0 => rfl
      | b + 1 =>
        refine pinner_oom_fuelout _ _ _ _ _ b ?_
        match b with
        | 0 => rfl
        | c + 1 =>
          match c with
          | 0 => exact oomKids_inner_fuelout _ _ _ _ 0 rfl
          | d + 1 =>
            match d with
            | 0 =>
                refine oomKids_inner_fuelout _ _ _ _ 1 ?_
                exact parse_comp_fuelout _ _ 0 rfl rfl rfl
            | e + 1 =>
                refine oomKids_inner_ok _ _ _ _ (e + 2) PRes.non
                    (c2Base (some oomEmptyE)
                      [.matcher 1 0, .wsSkip 0, .matcher 2 0, .wsSkip 0]) ?_ ?_
                · exact parse_comp_inner_ok emptyE
                    { input := [], position := 0, nm := none, inLexRule := false,
                      inParseComment := false, lastPexpr := some oomEmptyE,
                      skipws := true, ws := defaultWs, reduceTree := false,
                      commentsModel := none, cache := [],
                      events := [.matcher 2 0, .wsSkip 0] }
                    (e + 1) PRes.non
                    { input := [], position := 0, nm := none, inLexRule := false,
                      inParseComment := false, lastPexpr := some emptyE,
                      skipws := true, ws := defaultWs, reduceTree := false,
                      commentsModel := none, cache := [],
                      events := [.matcher 1 0, .wsSkip 0, .matcher 2 0,
                        .wsSkip 0] }
                    rfl rfl (pinner_empty_ok 1 "" false _ e)
                · exact oom_empty_loop (some oomEmptyE) (e + 2) ([] ++ [PRes.non])
                    [.matcher 1 0, .wsSkip 0, .matcher 2 0, .wsSkip 0]

/-- Events allowed while a lexical subtree is being parsed: matcher
runs only, no whitespace skipping and no comment-matching attempts. -/
def lexSafeEv : Ev → Bool
  | .matcher _ _ => true
  | _ => false

/-- The lexical-isolation relation between the state at entry to a
lexical region and a later state: the lexical flag is still set and
only lexically safe events were recorded in between. -/
def LexOk (s s' : PState) : Prop :=
  s'.inLexRule = true ∧ ∃ ev, s'.events = ev ++ s.events ∧ ev.all lexSafeEv = true

/-- Lexical isolation for an evaluation outcome. -/
def outLex (s : PState) : Out → Prop
  | .ok _ s' => LexOk s s'
  | .err _ s' => LexOk s s'
  | .fuelOut => True

theorem LexOk.base (s : PState) (h : s.inLexRule = true) : LexOk s s :=
  ⟨h, [], rfl, rfl⟩

theorem LexOk.trans (s1 s2 s3 : PState) (h1 : LexOk s1 s2) (h2 : LexOk s2 s3) :
    LexOk s1 s3 := by
  obtain ⟨ha, ev1, he1, hs1⟩ := h1
  obtain ⟨hb, ev2, he2, hs2⟩ := h2
  refine ⟨hb, ev2 ++ ev1, ?_, ?_⟩
  · rw [he2, he1, List.append_assoc]
  · rw [List.all_append, hs1, hs2]
    rfl

theorem LexOk.congr (s s' s'' : PState) (h : LexOk s s')
    (he : s''.events = s'.events) (hl : s''.inLexRule = true) : LexOk s s'' := by
  obtain ⟨ha, ev1, he1, hs1⟩ := h
  exact ⟨hl, ev1, by rw [he, he1], hs1⟩

theorem LexOk.congrLeft (s s3 s4 : PState) (h : LexOk s3 s4)
    (he : s3.events = s.events) : LexOk s s4 := by
  obtain ⟨ha, ev1, he1, hs1⟩ := h
  exact ⟨ha, ev1, by rw [he1, he], hs1⟩

theorem LexOk.stepEv (s s' : PState) (h : LexOk s s') (e : Ev)
    (hev : lexSafeEv e = true) : LexOk s { s' with events := e :: s'.events } := by
  obtain ⟨ha, ev1, he1, hs1⟩ := h
  refine ⟨ha, e :: ev1, ?_, ?_⟩
  · show e :: s'.events = (e :: ev1) ++ s.events
    rw [he1]
    rfl
  · simp [List.all_cons, hev, hs1]

theorem descendNm_snd (s : PState) : ∃ v, descendNm s = { s with nm := v } := by
  obtain ⟨i, p, nmv, lx, pc, lp, sw, w, rt, cm, ca, ev⟩ := s
  unfold descendNm
  rcases nmv with _ | cur <;> exact ⟨_, rfl⟩

theorem nmChangeRule_snd (e : Expr) (m : NM) (s : PState) :
    ∃ v, (nmChangeRule e m s).2 = { s with nm := v } := by
  obtain ⟨i, p, nmv, lx, pc, lp, sw, w, rt, cm, ca, ev⟩ := s
  unfold nmChangeRule
  by_cases hc : (e.root && decide (p = m.position) && m.up) = true
  · simp only [hc, if_true]
    by_cases hn : nmv = some m <;> simp only [hn, if_true, if_false] <;>
      exact ⟨_, rfl⟩
  · simp only [hc, if_false]
    exact ⟨_, rfl⟩

theorem strMatchP_ok_frame (rule : String) (root : Bool) (lit : String)
    (ic : Bool) (s : PState) (r : PRes) (s' : PState)
    (h : strMatchP rule root lit ic s = .ok r s') :
    s' = { s with position := s.position + lit.length } := by
  unfold strMatchP at h
  by_cases hm : (if ic then pyLower (String.mk ((s.input.drop s.position).take lit.length)) == pyLower lit
                 else (String.mk ((s.input.drop s.position).take lit.length)) == lit) = true
  · simp only [hm, if_true] at h
    injection h with h1 h2
    rw [h2]
  · simp only [hm, if_false] at h
    exact absurd h (by simp)

theorem eofP_ok_frame (s : PState) (r : PRes) (s' : PState)
    (h : eofP s = .ok r s') : s' = s := by
  unfold eofP at h
  by_cases hm : s.input.length = s.position
  · simp only [hm, if_true] at h
    injection h with h1 h2
    rw [h2]
  · simp only [hm, if_false] at h
    exact absurd h (by simp)

theorem outLexTrans (s s0 : PState) (o : Out) (h : LexOk s s0)
    (h2 : outLex s0 o) : outLex s o := by
  cases o with
  | ok r s' => exact LexOk.trans s s0 s' h h2
  | err pe s' => exact LexOk.trans s s0 s' h h2
  | fuelOut => trivial

theorem lex_invariant : ∀ (n : Nat) (c : Call) (s : PState),
    c.isCommentLoop = false → s.inLexRule = true → outLex s (run c s n) := by
  intro n
  induction n with
  | zero =>
      intro c s hc hl
      simp [run, outLex]
  | succ n ih =>
      intro c s hc hl
      cases c with
      | commentLoop acc => simp [Call.isCommentLoop] at hc
      | parse e =>
        simp only [run]
        have hintro : parseIntro s = s := by simp [parseIntro, hl]
        rw [hintro]
        cases he : e.isMatchLeaf with
        | true =>
          simp only [he, if_true]
          by_cases hpc : s.inParseComment = true
          · simp only [hpc, eq_self_iff_true, if_true]
            exact ih (.pinner e) s rfl hl
          · simp only [hpc, Bool.false_eq_true, if_false]
            cases hp : run (.pinner e) s n with
            | fuelOut => exact trivial
            | ok r s2 =>
                have hx := ih (.pinner e) s rfl hl
                rw [hp] at hx
                exact hx
            | err pe s2 =>
                have hx := ih (.pinner e) s rfl hl
                rw [hp] at hx
                cases pe with
                | typeErrNone => exact hx
                | noMatch nmv =>
                    have hx' : LexOk s s2 := hx
                    have hcond : (!s2.inLexRule && s2.commentsModel.isSome)
                        = false := by simp [hx'.1]
                    simp only [hcond, Bool.false_eq_true, if_false]
                    obtain ⟨v, hv⟩ := nmRaise_snd nmv s2
                    show LexOk s (nmRaise nmv s2).2
                    rw [hv]
                    exact LexOk.congr s s2 _ hx' rfl hx'.1
        | false =>
          simp only [he, Bool.false_eq_true, if_false]
          cases hlk : lookupCache s.cache e.nid s.position with
          | some cv =>
              obtain ⟨cr, np⟩ := cv
              cases cr with
              | ok r => exact LexOk.congr s s _ (LexOk.base s hl) rfl hl
              | err nmv =>
                  obtain ⟨v, hv⟩ := nmRaise_snd nmv { s with position := np }
                  show LexOk s (nmRaise nmv { s with position := np }).2
                  rw [hv]
                  exact LexOk.congr s s _ (LexOk.base s hl) rfl hl
          | none =>
              obtain ⟨dv, hdv⟩ := descendNm_snd s
              have hl3 : ({ descendNm s with lastPexpr := some e } :
                  PState).inLexRule = true := by rw [hdv]; exact hl
              have hev3 : ({ descendNm s with lastPexpr := some e } :
                  PState).events = s.events := by rw [hdv]
              cases hp : run (.pinner e)
                  { descendNm s with lastPexpr := some e } n with
              | fuelOut => exact trivial
              | ok r s4 =>
                  have hx := ih (.pinner e)
                    { descendNm s with lastPexpr := some e } rfl hl3
                  rw [hp] at hx
                  have hx' : LexOk s s4 := LexOk.congrLeft s _ s4 hx hev3
                  exact LexOk.congr s s4 _ hx' rfl hx'.1
              | err pe s4 =>
                  have hx := ih (.pinner e)
                    { descendNm s with lastPexpr := some e } rfl hl3
                  rw [hp] at hx
                  have hx' : LexOk s s4 := LexOk.congrLeft s _ s4 hx hev3
                  cases pe with
                  | noMatch nmv => exact LexOk.congr s s4 _ hx' rfl hx'.1
                  | typeErrNone => exact LexOk.congr s s4 _ hx' rfl hx'.1
      | pinner e =>
        cases e with
        | strMatch i ru rt lit ic =>
            simp only [run, Expr.nid]
            have hstep : LexOk s
                { s with events := Ev.matcher i s.position :: s.events } :=
              LexOk.stepEv s s (LexOk.base s hl) _ rfl
            cases hq : strMatchP ru rt lit ic
                { s with events := Ev.matcher i s.position :: s.events } with
            | fuelOut => exact trivial
            | ok r s' =>
                have hfr := strMatchP_ok_frame ru rt lit ic _ r s' hq
                show LexOk s s'
                rw [hfr]
                exact LexOk.congr s _ _ hstep rfl hl
            | err pe s' =>
                obtain ⟨v, hv⟩ := strMatchP_err_frame ru rt lit ic _ pe s' hq
                show LexOk s s'
                rw [hv]
                exact LexOk.congr s _ _ hstep rfl hl
        | endOfFile i ru rt =>
            simp only [run, Expr.nid]
            have hstep : LexOk s
                { s with events := Ev.matcher i s.position :: s.events } :=
              LexOk.stepEv s s (LexOk.base s hl) _ rfl
            cases hq : eofP
                { s with events := Ev.matcher i s.position :: s.events } with
            | fuelOut => exact trivial
            | ok r s' =>
                have hfr := eofP_ok_frame _ r s' hq
                show LexOk s s'
                rw [hfr]
                exact hstep
            | err pe s' =>
                obtain ⟨v, hv⟩ := eofP_err_frame _ pe s' hq
                show LexOk s s'
                rw [hv]
                exact LexOk.congr s _ _ hstep rfl hl
        | empty i ru rt =>
            simp only [run, Expr.nid]
            exact LexOk.stepEv s s (LexOk.base s hl) _ rfl
        | sequence i ru rt kids =>
            simp only [run, Expr.nid]
            have hstep : LexOk s
                { s with events := Ev.matcher i s.position :: s.events } :=
              LexOk.stepEv s s (LexOk.base s hl) _ rfl
            exact outLexTrans s _ _ hstep
              (ih (.seqKids (.sequence i ru rt kids) kids [])
                { s with events := Ev.matcher i s.position :: s.events } rfl hl)
        | orderedChoice i ru rt kids =>
            simp only [run, Expr.nid]
            have hstep : LexOk s
                { s with events := Ev.matcher i s.position :: s.events } :=
              LexOk.stepEv s s (LexOk.base s hl) _ rfl
            exact outLexTrans s _ _ hstep
              (ih (.choiceKids (.orderedChoice i ru rt kids) kids s.position)
                { s with events := Ev.matcher i s.position :: s.events } rfl hl)
        | zeroOrMore i ru rt child =>
            simp only [run, Expr.nid]
            have hstep : LexOk s
                { s with events := Ev.matcher i s.position :: s.events } :=
              LexOk.stepEv s s (LexOk.base s hl) _ rfl
            exact outLexTrans s _ _ hstep
              (ih (.zomKids child [])
                { s with events := Ev.matcher i s.position :: s.events } rfl hl)
        | oneOrMore i ru rt child =>
            simp only [run, Expr.nid]
            have hstep : LexOk s
                { s with events := Ev.matcher i s.position :: s.events } :=
              LexOk.stepEv s s (LexOk.base s hl) _ rfl
            exact outLexTrans s _ _ hstep
              (ih (.oomKids child [] false)
                { s with events := Ev.matcher i s.position :: s.events } rfl hl)
        | andPred i ru rt kids =>
            simp only [run, Expr.nid]
            have hstep : LexOk s
                { s with events := Ev.matcher i s.position :: s.events } :=
              LexOk.stepEv s s (LexOk.base s hl) _ rfl
            exact outLexTrans s _ _ hstep
              (ih (.andKids kids s.position)
                { s with events := Ev.matcher i s.position :: s.events } rfl hl)
        | notPred i ru rt kids =>
            simp only [run, Expr.nid]
            have hstep : LexOk s
                { s with events := Ev.matcher i s.position :: s.events } :=
              LexOk.stepEv s s (LexOk.base s hl) _ rfl
            exact outLexTrans s _ _ hstep
              (ih (.notKids (.notPred i ru rt kids) kids s.position)
                { s with events := Ev.matcher i s.position :: s.events } rfl hl)
        | opt i ru rt child =>
            simp only [run, Expr.nid]
            have hstep : LexOk s
                { s with events := Ev.matcher i s.position :: s.events } :=
              LexOk.stepEv s s (LexOk.base s hl) _ rfl
            cases hp : run (.parse child)
                { s with events := Ev.matcher i s.position :: s.events } n with
            | fuelOut => exact trivial
            | ok r s' =>
                have hx := ih (.parse child)
                  { s with events := Ev.matcher i s.position :: s.events } rfl hl
                rw [hp] at hx
                exact LexOk.trans s _ s' hstep hx
            | err pe s' =>
                have hx := ih (.parse child)
                  { s with events := Ev.matcher i s.position :: s.events } rfl hl
                rw [hp] at hx
                have hx' : LexOk s s' := LexOk.trans s _ s' hstep hx
                cases pe with
                | noMatch m => exact LexOk.congr s s' _ hx' rfl hx'.1
                | typeErrNone => exact hx'
        | combine i ru rt kids =>
            simp only [run, Expr.nid]
            have hstep : LexOk s
                { s with events := Ev.matcher i s.position :: s.events,
                         inLexRule := true } :=
              ⟨rfl, [Ev.matcher i s.position], rfl, rfl⟩
            cases hq : run (.combKids kids [])
                { s with events := Ev.matcher i s.position :: s.events,
                         inLexRule := true } n with
            | fuelOut => exact trivial
            | ok r s2 =>
                have hx := ih (.combKids kids [])
                  { s with events := Ev.matcher i s.position :: s.events,
                           inLexRule := true } rfl rfl
                rw [hq] at hx
                have hx' : LexOk s s2 := LexOk.trans s _ s2 hstep hx
                cases r with
                | list rs => exact LexOk.congr s s2 _ hx' rfl hl
                | non => exact LexOk.congr s s2 _ hx' rfl hl
                | term a b c d cm => exact LexOk.congr s s2 _ hx' rfl hl
                | nt a b c => exact LexOk.congr s s2 _ hx' rfl hl
            | err pe s2 =>
                have hx := ih (.combKids kids [])
                  { s with events := Ev.matcher i s.position :: s.events,
                           inLexRule := true } rfl rfl
                rw [hq] at hx
                have hx' : LexOk s s2 := LexOk.trans s _ s2 hstep hx
                cases pe with
                | noMatch nmv => exact LexOk.congr s s2 _ hx' rfl hl
                | typeErrNone => exact LexOk.congr s s2 _ hx' rfl hl
      | seqKids self es acc =>
        cases es with
        | nil =>
            simp only [run]
            exact LexOk.base s hl
        | cons e rest =>
            simp only [run]
            cases hp : run (.parse e) s n with
            | fuelOut => exact trivial
            | ok r s' =>
                have hx := ih (.parse e) s rfl hl
                rw [hp] at hx
                have hx' : LexOk s s' := hx
                exact outLexTrans s s' _ hx'
                  (ih (.seqKids self rest
                    (if truthy r then acc ++ [r] else acc)) s' rfl hx'.1)
            | err pe s' =>
                have hx := ih (.parse e) s rfl hl
                rw [hp] at hx
                have hx' : LexOk s s' := hx
                cases pe with
                | noMatch m =>
                    obtain ⟨v, hv⟩ := nmChangeRule_snd self m s'
                    show LexOk s (nmChangeRule self m s').2
                    rw [hv]
                    exact LexOk.congr s s' _ hx' rfl hx'.1
                | typeErrNone => exact hx'
      | choiceKids self es cpos =>
        cases es with
        | nil =>
            simp only [run]
            rcases hn : s.nm with _ | v
            · exact LexOk.base s hl
            · exact LexOk.base s hl
        | cons e rest =>
            simp only [run]
            cases hp : run (.parse e) s n with
            | fuelOut => exact trivial
            | ok r s' =>
                have hx := ih (.parse e) s rfl hl
                rw [hp] at hx
                exact hx
            | err pe s' =>
                have hx := ih (.parse e) s rfl hl
                rw [hp] at hx
                have hx' : LexOk s s' := hx
                cases pe with
                | noMatch m =>
                    obtain ⟨v, hv⟩ := nmChangeRule_snd self m
                      { s' with position := cpos }
                    have hs2 : LexOk s (nmChangeRule self m
                        { s' with position := cpos }).2 := by
                      rw [hv]
                      exact LexOk.congr s s' _ hx' rfl hx'.1
                    exact outLexTrans s _ _ hs2
                      (ih (.choiceKids self rest cpos) _ rfl hs2.1)
                | typeErrNone => exact hx'
      | zomKids child acc =>
        simp only [run]
        cases hp : run (.parse child) s n with
        | fuelOut => exact trivial
        | ok r s' =>
            have hx := ih (.parse child) s rfl hl
            rw [hp] at hx
            have hx' : LexOk s s' := hx
            exact outLexTrans s s' _ hx'
              (ih (.zomKids child (acc ++ [r])) s' rfl hx'.1)
        | err pe s' =>
            have hx := ih (.parse child) s rfl hl
            rw [hp] at hx
            have hx' : LexOk s s' := hx
            cases pe with
            | noMatch m => exact LexOk.congr s s' _ hx' rfl hx'.1
            | typeErrNone => exact hx'
      | oomKids child acc first =>
        simp only [run]
        cases hp : run (.parse child) s n with
        | fuelOut => exact trivial
        | ok r s' =>
            have hx := ih (.parse child) s rfl hl
            rw [hp] at hx
            have hx' : LexOk s s' := hx
            exact outLexTrans s s' _ hx'
              (ih (.oomKids child (acc ++ [r]) true) s' rfl hx'.1)
        | err pe s' =>
            have hx := ih (.parse child) s rfl hl
            rw [hp] at hx
            have hx' : LexOk s s' := hx
            cases pe with
            | noMatch m =>
                cases first with
                | true => exact LexOk.congr s s' _ hx' rfl hx'.1
                | false => exact LexOk.congr s s' _ hx' rfl hx'.1
            | typeErrNone => exact hx'
      | andKids es cpos =>
        cases es with
        | nil =>
            simp only [run]
            exact LexOk.congr s s _ (LexOk.base s hl) rfl hl
        | cons e rest =>
            simp only [run]
            cases hp : run (.parse e) s n with
            | fuelOut => exact trivial
            | ok r s' =>
                have hx := ih (.parse e) s rfl hl
                rw [hp] at hx
                have hx' : LexOk s s' := hx
                exact outLexTrans s s' _ hx'
                  (ih (.andKids rest cpos) s' rfl hx'.1)
            | err pe s' =>
                have hx := ih (.parse e) s rfl hl
                rw [hp] at hx
                have hx' : LexOk s s' := hx
                cases pe with
                | noMatch m => exact LexOk.congr s s' _ hx' rfl hx'.1
                | typeErrNone => exact hx'
      | notKids self es cpos =>
        cases es with
        | nil =>
            simp only [run]
            obtain ⟨v, hv⟩ := nmRaise_snd ⟨notName self, cpos, true⟩
              { s with position := cpos }
            show LexOk s (nmRaise ⟨notName self, cpos, true⟩
              { s with position := cpos }).2
            rw [hv]
            exact LexOk.congr s s _ (LexOk.base s hl) rfl hl
        | cons e rest =>
            simp only [run]
            cases hp : run (.parse e) s n with
            | fuelOut => exact trivial
            | ok r s' =>
                have hx := ih (.parse e) s rfl hl
                rw [hp] at hx
                have hx' : LexOk s s' := hx
                exact outLexTrans s s' _ hx'
                  (ih (.notKids self rest cpos) s' rfl hx'.1)
            | err pe s' =>
                have hx := ih (.parse e) s rfl hl
                rw [hp] at hx
                have hx' : LexOk s s' := hx
                cases pe with
                | noMatch m => exact LexOk.congr s s' _ hx' rfl hx'.1
                | typeErrNone => exact hx'
      | combKids es acc =>
        cases es with
        | nil =>
            simp only [run]
            exact LexOk.base s hl
        | cons e rest =>
            simp only [run]
            cases hp : run (.parse e) s n with
            | fuelOut => exact trivial
            | ok r s' =>
                have hx := ih (.parse e) s rfl hl
                rw [hp] at hx
                have hx' : LexOk s s' := hx
                exact outLexTrans s s' _ hx'
                  (ih (.combKids rest (acc ++ [r])) s' rfl hx'.1)
            | err pe s' =>
                have hx := ih (.parse e) s rfl hl
                rw [hp] at hx
                exact hx

theorem rootWrap_term (e : Expr) (cpos : Nat) (red : Bool) (a : String)
    (b : Nat) (c : String) (d : Bool) (cm : Option PRes) :
    rootWrap e cpos red (.term a b c d cm) = .term a b c d cm := by
  simp [rootWrap, truthy, PRes.isTerm]

theorem combKids_shape : ∀ (n : Nat) (es : List Expr) (acc : List PRes)
    (s : PState) (r : PRes) (s' : PState),
    run (.combKids es acc) s n = .ok r s' → ∃ rs, r = .list rs := by
  intro n
  induction n with
  | zero =>
      intro es acc s r s' h
      simp [run] at h
  | succ n ih =>
      intro es acc s r s' h
      cases es with
      | nil =>
          simp only [run, Out.ok.injEq] at h
          exact ⟨acc, h.1.symm⟩
      | cons e rest =>
          simp only [run] at h
          cases hq : run (.parse e) s n with
          | ok r0 s0 =>
              rw [hq] at h
              exact ih rest (acc ++ [r0]) s0 r s' h
          | err pe s0 =>
              rw [hq] at h
              simp at h
          | fuelOut =>
              rw [hq] at h
              simp at h

theorem parse_comp_inner_err (e : Expr) (s : PState) (n : Nat) (v : NM)
    (s4 : PState)
    (he : e.isMatchLeaf = false)
    (hmiss : lookupCache (parseIntro s).cache e.nid (parseIntro s).position = none)
    (h : run (.pinner e) { descendNm (parseIntro s) with lastPexpr := some e } n
        = .err (.noMatch v) s4) :
    run (.parse e) s (n + 1) = .err (.noMatch v)
      { s4 with position := (parseIntro s).position,
                cache := ((e.nid, (parseIntro s).position),
                  (.err v, (parseIntro s).position)) :: s4.cache,
                lastPexpr := (descendNm (parseIntro s)).lastPexpr } := by
  simp only [run, he, Bool.false_eq_true, if_false, hmiss]
  rw [h]

theorem parse_comp_inner_terr (e : Expr) (s : PState) (n : Nat) (s4 : PState)
    (he : e.isMatchLeaf = false)
    (hmiss : lookupCache (parseIntro s).cache e.nid (parseIntro s).position = none)
    (h : run (.pinner e) { descendNm (parseIntro s) with lastPexpr := some e } n
        = .err .typeErrNone s4) :
    run (.parse e) s (n + 1) = .err .typeErrNone
      { s4 with lastPexpr := (descendNm (parseIntro s)).lastPexpr } := by
  simp only [run, he, Bool.false_eq_true, if_false, hmiss]
  rw [h]

theorem combine_pinner_spec (n : Nat) (i : Nat) (ru : String) (rt : Bool)
    (kids : List Expr) (s : PState) :
    (∀ r s', run (.pinner (.combine i ru rt kids)) s n = .ok r s' →
        (∃ rs, r = .term (if rt then ru else "") s.position
            (String.join ((flattenList rs).map pyStr)) false none)
        ∧ s'.inLexRule = s.inLexRule
        ∧ ∃ ev, s'.events = ev ++ s.events ∧ ev.all lexSafeEv = true)
    ∧ (∀ m s', run (.pinner (.combine i ru rt kids)) s n = .err (.noMatch m) s' →
        s'.position = s.position ∧ s'.inLexRule = s.inLexRule
        ∧ ∃ ev, s'.events = ev ++ s.events ∧ ev.all lexSafeEv = true) := by
  cases n with
  | zero =>
      constructor <;> intro a b h <;> simp [run] at h
  | succ n =>
      have hlex := lex_invariant n (.combKids kids [])
        { s with events := Ev.matcher i s.position :: s.events,
                 inLexRule := true } rfl rfl
      cases hq : run (.combKids kids [])
          { s with events := Ev.matcher i s.position :: s.events,
                   inLexRule := true } n with
      | fuelOut =>
          constructor <;> intro a b h <;>
            (simp only [run, Expr.nid] at h; rw [hq] at h; simp at h)
      | ok r2 s2 =>
          obtain ⟨rs, hrs⟩ := combKids_shape n kids [] _ r2 s2 hq
          subst hrs
          rw [hq] at hlex
          have hlex' : LexOk { s with
              events := Ev.matcher i s.position :: s.events,
              inLexRule := true } s2 := hlex
          obtain ⟨hl2, ev, hev, hsafe⟩ := hlex'
          constructor
          · intro r s' h
            simp only [run, Expr.nid, Expr.root, Expr.rule] at h
            rw [hq] at h
            rw [Out.ok.injEq] at h
            obtain ⟨hr, hs⟩ := h
            refine ⟨⟨rs, hr.symm⟩, ?_, ev ++ [Ev.matcher i s.position], ?_, ?_⟩
            · rw [← hs]
            · rw [← hs]
              show s2.events = (ev ++ [Ev.matcher i s.position]) ++ s.events
              rw [hev]
              simp
            · simp [List.all_append, hsafe, lexSafeEv]
          · intro m s' h
            simp only [run, Expr.nid, Expr.root, Expr.rule] at h
            rw [hq] at h
            simp at h
      | err pe s2 =>
          rw [hq] at hlex
          have hlex' : LexOk { s with
              events := Ev.matcher i s.position :: s.events,
              inLexRule := true } s2 := hlex
          obtain ⟨hl2, ev, hev, hsafe⟩ := hlex'
          cases pe with
          | noMatch m0 =>
              constructor
              · intro r s' h
                simp only [run, Expr.nid] at h
                rw [hq] at h
                simp at h
              · intro m s' h
                simp only [run, Expr.nid] at h
                rw [hq] at h
                rw [Out.err.injEq] at h
                obtain ⟨hm, hs⟩ := h
                refine ⟨?_, ?_, ev ++ [Ev.matcher i s.position], ?_, ?_⟩
                · rw [← hs]
                · rw [← hs]
                · rw [← hs]
                  show s2.events = (ev ++ [Ev.matcher i s.position]) ++ s.events
                  rw [hev]
                  simp
                · simp [List.all_append, hsafe, lexSafeEv]
          | typeErrNone =>
              constructor <;> intro a b h <;>
                (simp only [run, Expr.nid] at h; rw [hq] at h; simp at h)

/-- C7, counterexample: a Combine node over a single Empty child on the
empty input succeeds, and the returned Terminal's value is "None" (the
Python str() of the Empty child's None result) while the subtree
matched no input text at all (the position stays 0), so the value is not
the exact concatenation of the matched child text, which is empty. -/
theorem c7_counterexample :
    outRes (run (.parse (.combine 0 "lex" false [.empty 1 "" false]))
        (initState "" none true false) 10)
      = some (.term "" 0 "None" false none)
    ∧ (outState (run (.parse (.combine 0 "lex" false [.empty 1 "" false]))
        (initState "" none true false) 10)).map PState.position = some 0 := by
  constructor
  · have hval : String.join ((flattenList [PRes.non]).map pyStr) = "None" := by
      simp only [flattenList, List.map_cons, List.map_nil, pyStr]
      rfl
    calc outRes (run (.parse (.combine 0 "lex" false [.empty 1 "" false]))
          (initState "" none true false) 10)
        = some (.term "" 0 (String.join ((flattenList [PRes.non]).map pyStr))
            false none) := rfl
      _ = some (.term "" 0 "None" false none) := by rw [hval]
  · rfl

/-- C7, amended: during the parse of a Combine subtree (entered with a
memo miss) no whitespace is skipped and no comment matching is
attempted: every ghost event recorded between the entry (after the
entry whitespace skip) and the exit is a matcher run, and the lexical
flag is restored to its entry value on every exit.  On success the
result is a single Terminal at the entry position whose value is the
"".join of the str() of the flattened child results (which equals the
matched text only when every child result is a Terminal of its matched
text; a None child contributes the string "None"); on NoMatch failure
the position is restored to the entry position. -/
theorem c7_amended (n : Nat) (i : Nat) (ru : String) (rt : Bool)
    (kids : List Expr) (s : PState)
    (hmiss : lookupCache (parseIntro s).cache (Expr.combine i ru rt kids).nid
        (parseIntro s).position = none) :
    (∀ r s', run (.parse (.combine i ru rt kids)) s n = .ok r s' →
        (∃ rs, r = .term (if rt then ru else "") (parseIntro s).position
            (String.join ((flattenList rs).map pyStr)) false none)
        ∧ s'.inLexRule = s.inLexRule
        ∧ ∃ ev, s'.events = ev ++ (parseIntro s).events ∧ ev.all lexSafeEv = true)
    ∧ (∀ m s', run (.parse (.combine i ru rt kids)) s n = .err (.noMatch m) s' →
        s'.position = (parseIntro s).position
        ∧ s'.inLexRule = s.inLexRule
        ∧ ∃ ev, s'.events = ev ++ (parseIntro s).events
            ∧ ev.all lexSafeEv = true) := by
  obtain ⟨dv, hdv⟩ := descendNm_snd (parseIntro s)
  have hpl : (parseIntro s).inLexRule = s.inLexRule := by
    obtain ⟨pp, pev, hpi⟩ := parseIntro_frame s
    rw [hpi]
  cases n with
  | zero =>
      constructor <;> intro a b h <;> simp [run] at h
  | succ n =>
      have hspec := combine_pinner_spec n i ru rt kids
        { descendNm (parseIntro s) with
          lastPexpr := some (Expr.combine i ru rt kids) }
      cases hq : run (.pinner (.combine i ru rt kids))
          { descendNm (parseIntro s) with
            lastPexpr := some (Expr.combine i ru rt kids) } n with
      | fuelOut =>
          have hf := parse_comp_fuelout (.combine i ru rt kids) s n rfl hmiss hq
          constructor <;> intro a b h <;> rw [hf] at h <;> simp at h
      | ok r2 s4 =>
          have hok := parse_comp_inner_ok (.combine i ru rt kids) s n r2 s4
            rfl hmiss hq
          have hsh := hspec.1 r2 s4 hq
          obtain ⟨⟨rs, hrs⟩, hlex4, ev, hev4, hsafe⟩ := hsh
          constructor
          · intro r s' h
            rw [hok] at h
            rw [Out.ok.injEq] at h
            obtain ⟨hr, hs⟩ := h
            refine ⟨⟨rs, ?_⟩, ?_, ev, ?_, hsafe⟩
            · rw [← hr, hrs, rootWrap_term, hdv]
            · rw [← hs]
              show s4.inLexRule = s.inLexRule
              rw [hlex4, hdv]
              exact hpl
            · rw [← hs]
              show s4.events = ev ++ (parseIntro s).events
              rw [hev4, hdv]
          · intro m s' h
            rw [hok] at h
            simp at h
      | err pe s4 =>
          cases pe with
          | typeErrNone =>
              have ht := parse_comp_inner_terr (.combine i ru rt kids) s n s4
                rfl hmiss hq
              constructor <;> intro a b h <;> rw [ht] at h <;> simp at h
          | noMatch v =>
              have he := parse_comp_inner_err (.combine i ru rt kids) s n v s4
                rfl hmiss hq
              have hsh := hspec.2 v s4 hq
              obtain ⟨hpos4, hlex4, ev, hev4, hsafe⟩ := hsh
              constructor
              · intro r s' h
                rw [he] at h
                simp at h
              · intro m s' h
                rw [he] at h
                rw [Out.err.injEq] at h
                obtain ⟨hm, hs⟩ := h
                refine ⟨?_, ?_, ev, ?_, hsafe⟩
                · rw [← hs]
                · rw [← hs]
                  show s4.inLexRule = s.inLexRule
                  rw [hlex4, hdv]
                  exact hpl
                · rw [← hs]
                  show s4.events = ev ++ (parseIntro s).events
                  rw [hev4, hdv]

/-- C7, witness for the amended theorem at a concrete input: a Combine
over the literal "a" fails on input "b" with the position restored to
the entry position 0 and the lexical flag restored to false. -/
theorem c7_amended_witness :
    (outState (run (.parse (.combine 5 "lex" false [.strMatch 6 "" false "a" false]))
        (initState "b" none true false) 10)).map PState.position
      = some (parseIntro (initState "b" none true false)).position
    ∧ (outState (run (.parse (.combine 5 "lex" false [.strMatch 6 "" false "a" false]))
        (initState "b" none true false) 10)).map PState.inLexRule
      = some false := by
  have herr : outErr (run (.parse (.combine 5 "lex" false
      [.strMatch 6 "" false "a" false])) (initState "b" none true false) 10)
      = some (.noMatch ⟨"a", 0, true⟩) := rfl
  cases hq : run (.parse (.combine 5 "lex" false [.strMatch 6 "" false "a" false]))
      (initState "b" none true false) 10 with
  | ok r s' =>
      rw [hq] at herr
      simp [outErr] at herr
  | fuelOut =>
      rw [hq] at herr
      simp [outErr] at herr
  | err pe s' =>
      cases pe with
      | typeErrNone =>
          rw [hq] at herr
          simp [outErr] at herr
      | noMatch m =>
          have h := (c7_amended 10 5 "lex" false [.strMatch 6 "" false "a" false]
            (initState "b" none true false) rfl).2 m s' hq
          obtain ⟨hpos, hlex, _⟩ := h
          constructor
          · show some s'.position
              = some (parseIntro (initState "b" none true false)).position
            rw [hpos]
          · show some s'.inLexRule = some false
            rw [hlex]
            rfl

end Arpeggio
